import Mathlib

/-! choose: combinations of command-line items

A shallow embedding of `src/choose.cpp` (anthony-arnold/choose) and theorems about it.

Conventions of the embedding

* `std::string` is a list of characters (`Str`); a `std::vector<std::string>` is a list of `Str`.
* `big_int` (`long long`) values are integers kept in `[-2^63, 2^63)` by `wrap64`;
  `big_uint` / `std::size_t` values are naturals kept below `2^64`.
* An iterator into `INPUT_VECTOR` and a `std::string*` taken with `&*begin` are both the
  index of the element they designate.
* Undefined behaviour of the C++ program (dereferencing the past-the-end iterator, `back()`
  of an empty vector, ...) is an explicit `Fault`.
* Standard output is threaded through the functions that write to it, together with a log
  of the selection stacks that were printed.
* The one allocation failure the program handles is modelled: the `resize` of line 115, inside
  the `try` of `read_range`, throws when the vector cannot be grown to the size asked for.
  How far the vector can be grown is the parameter `cap` of the functions that reach that
  line (at most `max_size()`, less when memory is short). `emplace_back` is taken to succeed.
-/

namespace Choose

/-- A `std::string`. -/
abbrev Str := List Char

/-- The ways in which the program can leave defined behaviour. -/
inductive Fault where
  /-- `*it` on an iterator or pointer that designates no element. -/
  | deref
  /-- `combos.back()` / `combos.end() - 1` on an empty vector. -/
  | emptyStack
  /-- `std::generate` on a range whose start lies behind its end. -/
  | badRange
  deriving DecidableEq, Repr

deriving instance DecidableEq for Except

/-- Two's-complement reading of an integer in 64 bits (the value range of `big_int`). -/
def wrap64 (x : Int) : Int := (x + 2 ^ 63) % 2 ^ 64 - 2 ^ 63

/-- Conversion `big_uint → big_int` at the call `print_combination(..., CHOOSE_K)`. -/
def to_big_int (k : Nat) : Int := wrap64 (k : Int)

/-- What the enumeration has written: the characters sent to `std::cout`, and (as a log) the
selection stack `combos` at each print, oldest first. -/
structure Out where
  stdout : Str
  emitted : List (List Nat)
  deriving DecidableEq, Repr

/-- `**it` for a `std::string*` held in `combos`: the element of `INPUT_VECTOR` it points to. -/
def deref (input : List Str) (p : Nat) : Except Fault Str :=
  match input[p]? with
  | some s => .ok s
  | none => .error .deref

/-- The `for` loop of lines 219-221: `std::cout << **it << OUTPUT_SEPARATOR` for every element
of `combos` but the last. -/
def print_front (sep : Str) (input : List Str) : List Nat → Str → Except Fault Str
  | [], s => .ok s
  | p :: ps, s =>
    match deref input p with
    | .ok t => print_front sep input ps (s ++ t ++ sep)
    | .error e => .error e

/-- The `k == 0` branch of `print_combination` (lines 219-222): print the selection stack as
one line. -/
def print_line (sep : Str) (input : List Str) (combos : List Nat) (out : Out) :
    Except Fault Out :=
  match combos.getLast? with
  | none => .error .emptyStack
  | some last =>
    match print_front sep input combos.dropLast out.stdout with
    | .error e => .error e
    | .ok s =>
      match deref input last with
      | .error e => .error e
      | .ok t => .ok { stdout := s ++ t ++ ['\n'], emitted := out.emitted ++ [combos] }

mutual
/-- `print_combination(combos, begin, end, k)` of lines 214-234, with `end = input.length`. -/
def print_combination (sep : Str) (input : List Str) (combos : List Nat) (begin : Nat)
    (k : Int) (out : Out) : Except Fault Out :=
  if k = 0 then
    print_line sep input combos out
  else
    print_combination_loop sep input combos begin k out
termination_by (input.length - begin, 1)
decreasing_by
  apply Prod.Lex.right
  omega
/-- The `while (std::distance(begin, end) >= k)` loop of lines 227-233. -/
def print_combination_loop (sep : Str) (input : List Str) (combos : List Nat) (begin : Nat)
    (k : Int) (out : Out) : Except Fault Out :=
  if ((input.length : Int) - (begin : Int)) ≥ k then
    if _h : begin < input.length then
      match print_combination sep input (combos ++ [begin]) (begin + 1) (wrap64 (k - 1)) out with
      | .error e => .error e
      | .ok out1 => print_combination_loop sep input combos (begin + 1) k out1
    else
      .error .deref
  else
    .ok out
termination_by (input.length - begin, 0)
decreasing_by
  all_goals apply Prod.Lex.left
  all_goals omega
end

/-- `print_all(e)` of lines 237-241, for `e = input` and `CHOOSE_K = k`. -/
def print_all (sep : Str) (input : List Str) (k : Nat) : Except Fault Out :=
  print_combination sep input [] 0 (to_big_int k) { stdout := [], emitted := [] }


/-! ### The standard-library functions the program calls -/

/-- `std::string::find(c)`: the position of the first `c`; `npos` is `none`. -/
def find (s : Str) (c : Char) : Option Nat :=
  if c ∈ s then some (s.indexOf c) else none

/-- `std::string::rfind(c)`: the position of the last `c`; `npos` is `none`. -/
def rfind (s : Str) (c : Char) : Option Nat :=
  if c ∈ s then some (s.length - 1 - s.reverse.indexOf c) else none

/-- `isspace` in the "C" locale. -/
def isspace (c : Char) : Bool :=
  c = ' ' || c = '\t' || c = '\n' || c = '\x0b' || c = '\x0c' || c = '\r'

/-- The exceptions of `std::stoll` / `std::stoull`. -/
inductive StoError where
  | invalid_argument
  | out_of_range
  deriving DecidableEq, Repr

/-- The value of a run of decimal digits, most significant first. -/
def digits_value (ds : Str) : Nat :=
  ds.foldl (fun acc c => acc * 10 + (c.toNat - 48)) 0

/-- The subject sequence `strtoll` / `strtoull` recognise in base 10: leading white space is
skipped, then an optional sign, then the longest run of digits. Gives (negative?, digits,
number of characters consumed through the last digit). -/
def scan_integer (s : Str) : Bool × Str × Nat :=
  let ws := s.takeWhile isspace
  let r := s.dropWhile isspace
  match r with
  | '-' :: t => (true, t.takeWhile Char.isDigit, ws.length + 1 + (t.takeWhile Char.isDigit).length)
  | '+' :: t => (false, t.takeWhile Char.isDigit, ws.length + 1 + (t.takeWhile Char.isDigit).length)
  | _ => (false, r.takeWhile Char.isDigit, ws.length + (r.takeWhile Char.isDigit).length)

/-- `std::stoll(s, &pos)`: the value and `pos`, or the exception thrown. -/
def stoll (s : Str) : Except StoError (Int × Nat) :=
  match scan_integer s with
  | (neg, ds, pos) =>
    if ds = [] then .error .invalid_argument
    else
      let v : Int := if neg then -(digits_value ds : Int) else (digits_value ds : Int)
      if v < -(2 ^ 63) ∨ 2 ^ 63 ≤ v then .error .out_of_range else .ok (v, pos)

/-- `std::stoull(s, &pos)`: the value and `pos`, or the exception thrown. As `strtoull` does,
a minus sign is accepted and negates the value in the unsigned type. -/
def stoull (s : Str) : Except StoError (Nat × Nat) :=
  match scan_integer s with
  | (neg, ds, pos) =>
    if ds = [] then .error .invalid_argument
    else if 2 ^ 64 ≤ digits_value ds then .error .out_of_range
    else .ok (if neg then (2 ^ 64 - digits_value ds) % 2 ^ 64 else digits_value ds, pos)

/-- Decimal digits of a natural number, most significant first: the last digit is `n % 10`,
the digits before it are those of `n / 10`. The first argument bounds the number of digits. -/
def nat_to_string_aux : Nat → Nat → Str
  | 0, _ => []
  | fuel + 1, n =>
    if n < 10 then [Nat.digitChar n]
    else nat_to_string_aux fuel (n / 10) ++ [Nat.digitChar (n % 10)]

/-- Decimal digits of a natural number, most significant first (`n` has at most `n + 1`
digits). -/
def nat_to_string (n : Nat) : Str := nat_to_string_aux (n + 1) n

/-- `std::to_string(long long)`. -/
def to_string (x : Int) : Str :=
  if x < 0 then '-' :: nat_to_string x.natAbs else nat_to_string x.natAbs

/-- What `std::vector::resize` throws when it cannot grow the vector: `std::length_error`
above `max_size()`, `std::bad_alloc` when memory is short. -/
inductive ResizeError where
  | cannot_grow
  deriving DecidableEq, Repr

/-- `std::vector<std::string>::resize(n)`. Shrinking, or keeping the size, never throws.
Growing to `n` entries succeeds when `n` is within `cap`, the largest size the vector can be
grown to, and throws otherwise, leaving the vector as it was. -/
def resize (cap : Nat) (v : List Str) (n : Nat) : Except ResizeError (List Str) :=
  if n ≤ v.length then .ok (v.take n)
  else if n ≤ cap then .ok (v ++ List.replicate (n - v.length) [])
  else .error .cannot_grow

/-! ### Reading the arguments -/

/-- `read_separator` (lines 47-58): the return value and the new `OUTPUT_SEPARATOR`. -/
def read_separator (arg : Str) (sep : Str) : Bool × Str :=
  if arg = ['-', 't'] then (true, ['\t'])
  else if arg = ['-', 'c'] then (true, [','])
  else (false, sep)

/-- `read_k` (lines 61-81): the return value, the new `CHOOSE_K` and what is written to
`std::cerr`. -/
def read_k (arg : Str) (CHOOSE_K : Nat) : Bool × Nat × Str :=
  match stoull arg with
  | .error .invalid_argument => (false, CHOOSE_K, "Invalid argument k\n".toList)
  | .error .out_of_range => (false, CHOOSE_K, "Out of range k\n".toList)
  | .ok (v, converted) =>
    if converted < arg.length then (false, v, [])
    else (true, v, [])

/-- `input_string` (lines 84-86). -/
def input_string (str : Str) (INPUT_VECTOR : List Str) : List Str :=
  INPUT_VECTOR ++ [str]

/-- `range_generator` (lines 90-106). -/
structure range_generator where
  start_ : Int
  inc_ : Int
  deriving DecidableEq, Repr

/-- The constructor of `range_generator` (lines 92-95). -/
def range_generator.mk_range (start : Int) (last : Int) : range_generator :=
  { start_ := start, inc_ := if start < last then 1 else -1 }

/-- `range_generator::operator()` (lines 97-101): the string returned and the generator
afterwards. -/
def range_generator.call (g : range_generator) : Str × range_generator :=
  (to_string g.start_, { g with start_ := wrap64 (g.start_ + g.inc_) })

/-- The strings `n` successive calls of the generator return. -/
def generate_list : Nat → range_generator → List Str
  | 0, _ => []
  | n + 1, g => g.call.1 :: generate_list n g.call.2

/-- `std::generate(v.begin() + start, v.end(), g)`: overwrite the elements from `start` on
with successive results of `g`. -/
def generate (v : List Str) (start : Nat) (g : range_generator) : Except Fault (List Str) :=
  if start ≤ v.length then .ok (v.take start ++ generate_list (v.length - start) g)
  else .error .badRange

/-- `input_range` (lines 110-119). `count` is computed in `big_int`, `start + count` in
`std::size_t`. The result is the new `INPUT_VECTOR`, or the exception that leaves the function
when `resize` throws (the vector is then unchanged). -/
def input_range (cap : Nat) (first last : Int) (INPUT_VECTOR : List Str) :
    Except Fault (Except ResizeError (List Str)) :=
  let count : Int := wrap64 (wrap64 (if first < last then last - first else first - last) + 1)
  let start := INPUT_VECTOR.length
  let new_size := (((start : Int) + count) % 2 ^ 64).toNat
  match resize cap INPUT_VECTOR new_size with
  | .error e => .ok (.error e)
  | .ok resized =>
    match generate resized start (range_generator.mk_range first last) with
    | .error f => .error f
    | .ok v => .ok (.ok v)

/-- `read_range` (lines 122-165): the return value and the new `INPUT_VECTOR`. The
`catch (...)` of line 159 also catches what `resize` throws inside `input_range`. -/
def read_range (cap : Nat) (left right : Str) (INPUT_VECTOR : List Str) :
    Except Fault (Bool × List Str) :=
  if left.length = 0 ∨ right.length = 0 then .ok (false, INPUT_VECTOR)
  else if find left '-' ≠ none ∧ find left '-' ≠ some 0 then .ok (false, INPUT_VECTOR)
  else if find right '-' ≠ none ∧ find right '-' ≠ some 0 then .ok (false, INPUT_VECTOR)
  else
    match stoll left with
    | .error _ => .ok (false, INPUT_VECTOR)
    | .ok (first, pos) =>
      if pos ≠ left.length then .ok (false, INPUT_VECTOR)
      else
        match stoll right with
        | .error _ => .ok (false, INPUT_VECTOR)
        | .ok (last, pos) =>
          if pos ≠ right.length then .ok (false, INPUT_VECTOR)
          else
            match input_range cap first last INPUT_VECTOR with
            | .error f => .error f
            | .ok (.error _) => .ok (false, INPUT_VECTOR)
            | .ok (.ok v) => .ok (true, v)

/-- The split position `dash_pos` chosen in lines 172-193. -/
def dash_pos (arg : Str) : Option Nat :=
  let last_dash_pos := rfind arg '-'
  let first_dash_pos := find arg '-'
  if last_dash_pos ≠ first_dash_pos then
    if first_dash_pos = some 0 then
      match last_dash_pos with
      | some p => if arg[p - 1]? = some '-' then some (p - 1) else some p
      | none => none
    else first_dash_pos
  else last_dash_pos

/-- The body of the `for` loop of `read_elements` (lines 170-209) for one argument. -/
def read_element (cap : Nat) (arg : Str) (INPUT_VECTOR : List Str) :
    Except Fault (List Str) :=
  match dash_pos arg with
  | none => .ok (input_string arg INPUT_VECTOR)
  | some p =>
    if p ≠ 0 then
      match read_range cap (arg.take p) (arg.drop (p + 1)) INPUT_VECTOR with
      | .error e => .error e
      | .ok (true, v) => .ok v
      | .ok (false, v) => .ok (input_string arg v)
    else .ok (input_string arg INPUT_VECTOR)

/-- `read_elements` (lines 168-211) over the arguments `argv[0 .. argc)`. -/
def read_elements (cap : Nat) : List Str → List Str → Except Fault (List Str)
  | [], v => .ok v
  | arg :: rest, v =>
    match read_element cap arg v with
    | .error e => .error e
    | .ok v1 => read_elements cap rest v1

/-- The words `std::cin >> word` delivers until end of stream. -/
def cin_words (stdin : Str) : List Str :=
  (stdin.splitOnP isspace).filter (fun w => w ≠ [])

/-- The line `print_usage` writes to `std::cerr` (lines 42-44). -/
def usage : Str := "usage: choose [-t | -c] <item> [<item> ...] k\n".toList

/-- The state in which `main` returns. -/
structure Result where
  exit_code : Nat
  stdout : Str
  stderr : Str
  emitted : List (List Nat)
  INPUT_VECTOR : List Str
  OUTPUT_SEPARATOR : Str
  CHOOSE_K : Nat
  deriving DecidableEq, Repr

/-- `main` (lines 243-292); `args` is `argv[1 .. argc)`, `stdin` what standard input
holds and `cap` the size up to which `INPUT_VECTOR` can be grown by `resize`. -/
def main (cap : Nat) (args : List Str) (stdin : Str) : Except Fault Result :=
  if args.length + 1 < 3 then
    .ok ⟨1, [], usage, [], [], [','], 0⟩
  else
    let sep := read_separator (args.headD []) [',']
    let argv := if sep.1 then args.drop 1 else args
    if argv.length < 2 then
      .ok ⟨2, [], usage, [], [], sep.2, 0⟩
    else
      let argc := argv.length - 1
      match read_k (argv.getD argc []) 0 with
      | (false, k, err) => .ok ⟨3, [], err ++ usage, [], [], sep.2, k⟩
      | (true, k, _) =>
        if k = 0 then
          .ok ⟨0, [], [], [], [], sep.2, k⟩
        else
          let filled : Except Fault (List Str) :=
            if argc = 1 ∧ argv.headD [] = ['-'] then .ok (cin_words stdin)
            else read_elements cap (argv.take argc) []
          match filled with
          | .error e => .error e
          | .ok input =>
            match print_all sep.2 input k with
            | .error e => .error e
            | .ok out => .ok ⟨0, out.stdout, [], out.emitted, input, sep.2, k⟩


/-! ### Reference enumeration used to describe the output -/

/-- The `k`-element selections of a list, each in list order; selections that take an
earlier element come first. -/
def combs : Nat → List Nat → List (List Nat)
  | 0, _ => [[]]
  | _ + 1, [] => []
  | k + 1, x :: xs => (combs k xs).map (fun t => x :: t) ++ combs (k + 1) xs

/-- The line printed for a selection stack: its tokens joined by the separator, then a
newline. -/
def render (sep : Str) (input : List Str) (combos : List Nat) : Str :=
  List.intercalate sep (combos.map (fun p => input.getD p [])) ++ ['\n']

/-- The output after the selection stacks `cs` have been printed one after the other. -/
def Out.extend (sep : Str) (input : List Str) (out : Out) (cs : List (List Nat)) : Out :=
  { stdout := out.stdout ++ (cs.map (render sep input)).flatten, emitted := out.emitted ++ cs }

/-! ### Reference description of a range expansion -/

/-- The step of the walk from `first` to `last`. -/
def range_step (first last : Int) : Int := if first < last then 1 else -1

/-- The span `|last - first| + 1` as a mathematical integer. -/
def range_count (first last : Int) : Nat :=
  (if first < last then last - first else first - last).toNat + 1

/-- The decimal strings of `first, first + s, first + 2 s, ..., last`. -/
def range_tokens (first last : Int) : List Str :=
  (List.range (range_count first last)).map
    (fun (i : Nat) => to_string (first + range_step first last * (i : Int)))

/-- `s` is consumed in full by `std::stoll`: it does not throw and `pos == s.length()`. -/
def parses_in_full (s : Str) : Bool :=
  match stoll s with
  | .ok (_, pos) => pos = s.length
  | .error _ => false

/-- `s` has the form `[0-9]+`. -/
def is_digits (s : Str) : Bool := s ≠ [] && s.all Char.isDigit

/-- `s` has the form `-?[0-9]+`. -/
def is_decimal (s : Str) : Bool :=
  match s with
  | '-' :: t => is_digits t
  | _ => is_digits s

/-- The integer a string of the form `-?[0-9]+` denotes. -/
def decimal_value (s : Str) : Int :=
  match s with
  | '-' :: t => -(digits_value t : Int)
  | _ => (digits_value s : Int)

/-! ### Reference descriptions used for the argument handling -/

/-- What is left of a string once its leading white space is dropped, split into the sign
(true for `-`) and the text behind the sign. -/
def sign_and_rest (s : Str) : Bool × Str :=
  match s.dropWhile isspace with
  | '-' :: t => (true, t)
  | '+' :: t => (false, t)
  | r => (false, r)

/-- The arguments `argv[0 .. argc)` of `main` once the separator flag is consumed (lines
252-257). -/
def main_argv (args : List Str) : List Str :=
  if (read_separator (args.headD []) [',']).1 then args.drop 1 else args

/-- The separator in force once the separator flag is consumed (lines 252-257). -/
def main_sep (args : List Str) : Str :=
  (read_separator (args.headD []) [',']).2

/-- The whitespace-separated words of a character stream, read left to right with the word
in progress in `cur`: a white-space character ends the word in progress (if there is one),
any other character extends it, and the end of the stream ends it. -/
def spec_words_from (cur : Str) : Str → List Str
  | [] => if cur = [] then [] else [cur]
  | c :: cs =>
    if isspace c then
      if cur = [] then spec_words_from [] cs else cur :: spec_words_from [] cs
    else spec_words_from (cur ++ [c]) cs

/-- The whitespace-separated words of standard input, in order, as the specification
describes the stdin mode: the maximal runs of characters that are not white space. -/
def spec_whitespace_words (stdin : Str) : List Str := spec_words_from [] stdin

/-! ### The enumeration with its calls recorded -/

mutual
/-- `print_combination` (lines 214-234) with a record of its calls: every call appends its
nesting depth (0 for the outermost call) and the size of the selection stack `combos` it is
entered with to `calls`; the recursive call of line 230 is one level deeper. -/
def print_combination_traced (sep : Str) (input : List Str) (combos : List Nat) (begin : Nat)
    (k : Int) (depth : Nat) (out : Out) (calls : List (Nat × Nat)) :
    Except Fault (Out × List (Nat × Nat)) :=
  if k = 0 then
    match print_line sep input combos out with
    | .error e => .error e
    | .ok out1 => .ok (out1, calls ++ [(depth, combos.length)])
  else
    print_combination_loop_traced sep input combos begin k depth out
      (calls ++ [(depth, combos.length)])
termination_by (input.length - begin, 1)
decreasing_by
  apply Prod.Lex.right
  omega
/-- The `while` loop of lines 227-233 inside a call at nesting depth `depth`. -/
def print_combination_loop_traced (sep : Str) (input : List Str) (combos : List Nat)
    (begin : Nat) (k : Int) (depth : Nat) (out : Out) (calls : List (Nat × Nat)) :
    Except Fault (Out × List (Nat × Nat)) :=
  if ((input.length : Int) - (begin : Int)) ≥ k then
    if _h : begin < input.length then
      match print_combination_traced sep input (combos ++ [begin]) (begin + 1)
          (wrap64 (k - 1)) (depth + 1) out calls with
      | .error e => .error e
      | .ok (out1, calls1) =>
        print_combination_loop_traced sep input combos (begin + 1) k depth out1 calls1
    else
      .error .deref
  else
    .ok (out, calls)
termination_by (input.length - begin, 0)
decreasing_by
  all_goals apply Prod.Lex.left
  all_goals omega
end

/-! ### Reading the arguments whatever the capacity -/

/-- Whether `read_elements cap args v` depends on `cap` no further: every argument is
expanded by `read_range` at `cap`, or is kept as one string for a reason other than
`resize` throwing (it is also kept when `resize` can grow the vector to any `size_t`). -/
def settled (cap : Nat) : List Str → List Str → Bool
  | [], _ => true
  | arg :: rest, v =>
    match dash_pos arg with
    | none => settled cap rest (v ++ [arg])
    | some p =>
      if p = 0 then settled cap rest (v ++ [arg])
      else
        match read_range cap (arg.take p) (arg.drop (p + 1)) v with
        | .error _ => false
        | .ok (true, w) => settled cap rest w
        | .ok (false, _) =>
          decide (read_range (2 ^ 64) (arg.take p) (arg.drop (p + 1)) v = .ok (false, v))
            && settled cap rest (v ++ [arg])

/-! ## Lemmas -/

theorem wrap64_of_range {x : Int} (h1 : -(2 ^ 63) ≤ x) (h2 : x < 2 ^ 63) : wrap64 x = x := by
  unfold wrap64
  omega

theorem to_big_int_of_lt {k : Nat} (h : k < 2 ^ 63) : to_big_int k = (k : Int) := by
  unfold to_big_int
  apply wrap64_of_range <;> omega

theorem to_big_int_neg {k : Nat} (h1 : 2 ^ 63 ≤ k) (h2 : k < 2 ^ 64) : to_big_int k < 0 := by
  unfold to_big_int wrap64
  omega

/-! ### The reference enumeration -/

theorem combs_zero (l : List Nat) : combs 0 l = [[]] := by
  cases l <;> rfl

theorem combs_of_length_lt : ∀ (k : Nat) (l : List Nat), l.length < k → combs k l = []
  | 0, _, h => by simp at h
  | _ + 1, [], _ => rfl
  | k + 1, x :: xs, h => by
    have h1 : xs.length < k := by simpa using h
    have h2 : xs.length < k + 1 := by omega
    simp [combs, combs_of_length_lt k xs h1, combs_of_length_lt (k + 1) xs h2]

theorem length_combs : ∀ (k : Nat) (l : List Nat), (combs k l).length = Nat.choose l.length k
  | 0, l => by simp [combs_zero]
  | _ + 1, [] => by simp [combs]
  | k + 1, x :: xs => by
    simp [combs, length_combs k xs, length_combs (k + 1) xs, Nat.choose_succ_succ]

theorem mem_combs : ∀ (k : Nat) (l t : List Nat), t ∈ combs k l ↔ t.Sublist l ∧ t.length = k
  | 0, l, t => by
    rw [combs_zero]
    constructor
    · intro h
      simp at h
      subst h
      simp
    · rintro ⟨_, h⟩
      simp [List.length_eq_zero.mp h]
  | k + 1, [], t => by
    simp only [combs, List.not_mem_nil, List.sublist_nil, false_iff, not_and]
    rintro rfl
    simp
  | k + 1, x :: xs, t => by
    simp only [combs, List.mem_append, List.mem_map, mem_combs k xs, mem_combs (k + 1) xs]
    constructor
    · rintro (⟨u, ⟨hu, hl⟩, rfl⟩ | ⟨hs, hl⟩)
      · exact ⟨hu.cons₂ x, by simp [hl]⟩
      · exact ⟨hs.cons x, hl⟩
    · rintro ⟨hs, hl⟩
      cases hs with
      | cons _ h => exact Or.inr ⟨h, hl⟩
      | cons₂ _ h =>
        rename_i u
        exact Or.inl ⟨u, ⟨h, by simpa using hl⟩, rfl⟩

theorem nodup_combs : ∀ (k : Nat) (l : List Nat), l.Nodup → (combs k l).Nodup
  | 0, l, _ => by simp [combs_zero]
  | _ + 1, [], _ => by simp [combs]
  | k + 1, x :: xs, h => by
    have hx : x ∉ xs := (List.nodup_cons.mp h).1
    have hxs : xs.Nodup := (List.nodup_cons.mp h).2
    simp only [combs]
    refine List.Nodup.append ?_ (nodup_combs (k + 1) xs hxs) ?_
    · exact (nodup_combs k xs hxs).map (fun a b hab => (List.cons.inj hab).2)
    · intro t h1 h2
      obtain ⟨u, _, rfl⟩ := List.mem_map.mp h1
      have := ((mem_combs (k + 1) xs _).mp h2).1
      exact hx (this.subset (List.mem_cons_self x u))

theorem lex_combs : ∀ (k : Nat) (l : List Nat), l.Pairwise (· < ·) →
    (combs k l).Pairwise (List.Lex (· < ·))
  | 0, l, _ => by simp [combs_zero]
  | _ + 1, [], _ => by simp [combs]
  | k + 1, x :: xs, h => by
    have hx : ∀ y ∈ xs, x < y := (List.pairwise_cons.mp h).1
    have hxs : xs.Pairwise (· < ·) := (List.pairwise_cons.mp h).2
    simp only [combs]
    rw [List.pairwise_append]
    refine ⟨?_, lex_combs (k + 1) xs hxs, ?_⟩
    · rw [List.pairwise_map]
      exact (lex_combs k xs hxs).imp (fun hab => List.Lex.cons hab)
    · intro t h1 v h2
      obtain ⟨u, _, rfl⟩ := List.mem_map.mp h1
      obtain ⟨hv, hl⟩ := (mem_combs (k + 1) xs v).mp h2
      cases v with
      | nil => simp at hl
      | cons y ys => exact List.Lex.rel (hx y (hv.subset (List.mem_cons_self y ys)))

/-! ### Printing one line -/

theorem deref_of_lt {input : List Str} {p : Nat} (h : p < input.length) :
    deref input p = .ok (input.getD p []) := by
  simp [deref, List.getD, List.getElem?_eq_getElem h]

theorem print_front_ok (sep : Str) (input : List Str) :
    ∀ (ps : List Nat) (s : Str), (∀ p ∈ ps, p < input.length) →
      print_front sep input ps s
        = .ok (s ++ (ps.map (fun p => input.getD p [] ++ sep)).flatten)
  | [], s, _ => by simp [print_front]
  | p :: ps, s, h => by
    have hp : p < input.length := h p (List.mem_cons_self p ps)
    have hps : ∀ q ∈ ps, q < input.length := fun q hq => h q (List.mem_cons_of_mem p hq)
    simp [print_front, deref_of_lt hp, print_front_ok sep input ps _ hps, List.append_assoc]

theorem intercalate_eq_front_last (sep : Str) :
    ∀ (l : List Str) (h : l ≠ []),
      List.intercalate sep l = (l.dropLast.map (fun t => t ++ sep)).flatten ++ l.getLast h
  | [], h => absurd rfl h
  | [x], _ => by simp [List.intercalate, List.intersperse]
  | x :: y :: zs, _ => by
    have ih := intercalate_eq_front_last sep (y :: zs) (by simp)
    simp only [List.intercalate] at ih
    simp [List.intercalate, List.intersperse, ih, List.append_assoc]

theorem print_line_ok (sep : Str) (input : List Str) (combos : List Nat) (out : Out)
    (hne : combos ≠ []) (hv : ∀ p ∈ combos, p < input.length) :
    print_line sep input combos out = .ok (out.extend sep input [combos]) := by
  have hlast : combos.getLast hne < input.length := hv _ (List.getLast_mem hne)
  have hfront : ∀ p ∈ combos.dropLast, p < input.length :=
    fun p hp => hv p (List.mem_of_mem_dropLast hp)
  have hne2 : combos.map (fun p => input.getD p []) ≠ [] := by simpa using hne
  have hi := intercalate_eq_front_last sep (combos.map (fun p => input.getD p [])) hne2
  simp only [print_line, List.getLast?_eq_getLast _ hne, print_front_ok sep input _ _ hfront,
    deref_of_lt hlast, Out.extend, List.map_cons, List.map_nil, List.flatten_cons,
    List.flatten_nil, List.append_nil, render, hi]
  simp [List.getLast_map, List.map_dropLast, List.append_assoc]
  rfl

/-! ### The enumeration -/

theorem Out.extend_nil (sep : Str) (input : List Str) (out : Out) :
    out.extend sep input [] = out := by
  simp [Out.extend]

theorem Out.extend_extend (sep : Str) (input : List Str) (out : Out) (cs ds : List (List Nat)) :
    (out.extend sep input cs).extend sep input ds = out.extend sep input (cs ++ ds) := by
  simp [Out.extend, List.append_assoc]

/-- The loop of `print_combination`, entered at `begin` with a positive count below `2^63`,
prints the selections of the remaining indices, each behind the current stack. -/
theorem print_combination_loop_ok (sep : Str) (input : List Str) :
    ∀ (m begin : Nat), input.length - begin = m → begin ≤ input.length →
      ∀ (k : Nat) (combos : List Nat) (out : Out), k + 1 < 2 ^ 63 →
        (∀ p ∈ combos, p < input.length) →
        print_combination_loop sep input combos begin ((k + 1 : Nat) : Int) out
          = .ok (out.extend sep input
              ((combs (k + 1) (List.range' begin m)).map (fun t => combos ++ t)))
  | 0, begin, hm, hb => by
    intro k combos out _ _
    rw [print_combination_loop]
    have : ¬ ((input.length : Int) - (begin : Int) ≥ ((k + 1 : Nat) : Int)) := by omega
    rw [if_neg this]
    simp [combs, Out.extend_nil]
  | m + 1, begin, hm, hb => by
    intro k combos out hk hv
    have hlt : begin < input.length := by omega
    have ih := print_combination_loop_ok sep input m (begin + 1) (by omega) (by omega)
    rw [print_combination_loop]
    by_cases hc : (input.length : Int) - (begin : Int) ≥ ((k + 1 : Nat) : Int)
    · have hw : wrap64 (((k + 1 : Nat) : Int) - 1) = (k : Int) := by
        rw [wrap64_of_range] <;> omega
      have hv1 : ∀ p ∈ combos ++ [begin], p < input.length := by
        intro p hp
        rcases List.mem_append.mp hp with h | h
        · exact hv p h
        · simpa [List.mem_singleton.mp h] using hlt
      have hrec : print_combination sep input (combos ++ [begin]) (begin + 1) (k : Int) out
          = .ok (out.extend sep input
              ((combs k (List.range' (begin + 1) m)).map (fun t => (combos ++ [begin]) ++ t))) := by
        rw [print_combination]
        cases k with
        | zero =>
          simp [print_line_ok sep input _ out (by simp) hv1, combs_zero]
        | succ j =>
          have hj : ¬ (((j + 1 : Nat) : Int) = 0) := by omega
          rw [if_neg hj]
          exact ih j (combos ++ [begin]) out (by omega) hv1
      rw [if_pos hc, dif_pos hlt, hw, hrec]
      simp only []
      rw [ih k combos _ hk hv, Out.extend_extend]
      simp [List.range'_succ, combs, List.map_append, List.map_map, Function.comp_def,
        List.append_assoc]
    · have hl : (List.range' begin (m + 1)).length < k + 1 := by
        simp only [List.length_range']
        omega
      rw [if_neg hc]
      simp [combs_of_length_lt _ _ hl, Out.extend_nil]

/-- The call `print_combination(combos, begin, end, k)` for a count `0 ≤ k < 2^63` (with a
non-empty stack when `k = 0`) prints the `k`-selections of the indices from `begin` on, each
behind the current stack. -/
theorem print_combination_ok (sep : Str) (input : List Str) (begin k : Nat) (combos : List Nat)
    (out : Out) (hb : begin ≤ input.length) (hk : k < 2 ^ 63)
    (hv : ∀ p ∈ combos, p < input.length) (hne : k = 0 → combos ≠ []) :
    print_combination sep input combos begin (k : Int) out
      = .ok (out.extend sep input
          ((combs k (List.range' begin (input.length - begin))).map (fun t => combos ++ t))) := by
  rw [print_combination]
  cases k with
  | zero => simp [print_line_ok sep input _ out (hne rfl) hv, combs_zero]
  | succ j =>
    have hj : ¬ (((j + 1 : Nat) : Int) = 0) := by omega
    rw [if_neg hj]
    exact print_combination_loop_ok sep input _ begin rfl hb j combos out hk hv

/-- The output of `print_all` for a count `1 ≤ k < 2^63`. -/
theorem print_all_ok (sep : Str) (input : List Str) (k : Nat) (h1 : 1 ≤ k) (hk : k < 2 ^ 63) :
    print_all sep input k
      = .ok { stdout := ((combs k (List.range input.length)).map (render sep input)).flatten,
              emitted := combs k (List.range input.length) } := by
  unfold print_all
  rw [to_big_int_of_lt hk, print_combination_ok sep input 0 k [] _ (Nat.zero_le _) hk
    (by simp) (by omega)]
  simp [Out.extend, List.range_eq_range']

/-- With a negative count the loop condition never fails, and the loop runs into the end of
the vector. -/
theorem print_combination_loop_neg (sep : Str) (input : List Str) :
    ∀ (m begin : Nat), input.length - begin = m → begin ≤ input.length →
      ∀ (k : Int) (combos : List Nat) (out : Out), k < 0 →
        ∃ e, print_combination_loop sep input combos begin k out = .error e
  | 0, begin, hm, hb => by
    intro k combos out hk
    rw [print_combination_loop]
    have hc : (input.length : Int) - (begin : Int) ≥ k := by omega
    have hlt : ¬ begin < input.length := by omega
    rw [if_pos hc, dif_neg hlt]
    exact ⟨_, rfl⟩
  | m + 1, begin, hm, hb => by
    intro k combos out hk
    rw [print_combination_loop]
    have hc : (input.length : Int) - (begin : Int) ≥ k := by omega
    have hlt : begin < input.length := by omega
    rw [if_pos hc, dif_pos hlt]
    cases print_combination sep input (combos ++ [begin]) (begin + 1) (wrap64 (k - 1)) out with
    | error e => exact ⟨e, rfl⟩
    | ok out1 =>
      exact print_combination_loop_neg sep input m (begin + 1) (by omega) (by omega) k combos
        out1 hk

/-- A count of `2^63` or more reaches `print_combination` as a negative `big_int`, and the
enumeration leaves defined behaviour. -/
theorem print_all_fault (sep : Str) (input : List Str) (k : Nat) (h1 : 2 ^ 63 ≤ k)
    (h2 : k < 2 ^ 64) : ∃ e, print_all sep input k = .error e := by
  have hneg := to_big_int_neg h1 h2
  unfold print_all
  rw [print_combination, if_neg (by omega)]
  exact print_combination_loop_neg sep input _ 0 rfl (Nat.zero_le _) _ _ _ hneg

/-- A count above the length of the input (and below `2^63`) prints nothing. -/
theorem print_all_nothing (sep : Str) (input : List Str) (k : Nat) (hn : input.length < k)
    (hk : k < 2 ^ 63) : print_all sep input k = .ok { stdout := [], emitted := [] } := by
  rw [print_all_ok sep input k (by omega) hk, combs_of_length_lt k _ (by simpa using hn)]
  rfl

/-! ### Index tuples -/

theorem sublist_range_iff (t : List Nat) (n : Nat) :
    t.Sublist (List.range n) ↔ t.Sorted (· < ·) ∧ ∀ i ∈ t, i < n := by
  constructor
  · intro h
    exact ⟨(List.pairwise_lt_range n).sublist h, fun i hi => List.mem_range.mp (h.subset hi)⟩
  · rintro ⟨hs, hb⟩
    have hsub : t ⊆ List.range n := fun i hi => List.mem_range.mpr (hb i hi)
    have hp : t.Subperm (List.range n) := List.subperm_of_subset hs.nodup hsub
    exact List.sublist_of_subperm_of_sorted hp hs (List.pairwise_lt_range n)

theorem map_getD_range (input : List Str) :
    (List.range input.length).map (fun p => input.getD p []) = input := by
  apply List.ext_getElem
  · simp
  · intro i h1 h2
    simp [List.getD, List.getElem?_eq_getElem h2]

theorem mem_combs_range (k n : Nat) (t : List Nat) :
    t ∈ combs k (List.range n) ↔ t.length = k ∧ t.Sorted (· < ·) ∧ ∀ i ∈ t, i < n := by
  rw [mem_combs, sublist_range_iff]
  tauto

theorem toFinset_injOn_sorted {t u : List Nat} (ht : t.Sorted (· < ·)) (hu : u.Sorted (· < ·))
    (h : t.toFinset = u.toFinset) : t = u :=
  List.eq_of_perm_of_sorted (List.perm_of_nodup_nodup_toFinset_eq ht.nodup hu.nodup h) ht hu

theorem mem_map_toFinset_combs_range (k n : Nat) (s : Finset Nat) :
    s ∈ (combs k (List.range n)).map List.toFinset ↔ s ∈ Finset.powersetCard k (Finset.range n) := by
  rw [List.mem_map, Finset.mem_powersetCard]
  constructor
  · rintro ⟨t, ht, rfl⟩
    obtain ⟨hl, hs, hb⟩ := (mem_combs_range k n t).mp ht
    refine ⟨fun i hi => Finset.mem_range.mpr (hb i (List.mem_toFinset.mp hi)), ?_⟩
    rw [List.toFinset_card_of_nodup hs.nodup, hl]
  · rintro ⟨hsub, hc⟩
    refine ⟨s.sort (· ≤ ·), (mem_combs_range k n _).mpr ⟨?_, Finset.sort_sorted_lt s, ?_⟩,
      Finset.sort_toFinset _ s⟩
    · rw [Finset.length_sort, hc]
    · intro i hi
      exact Finset.mem_range.mp (hsub ((Finset.mem_sort _).mp hi))

theorem nodup_map_toFinset_combs_range (k n : Nat) :
    ((combs k (List.range n)).map List.toFinset).Nodup := by
  refine List.Nodup.map_on ?_ (nodup_combs k _ (List.nodup_range n))
  intro t ht u hu h
  exact toFinset_injOn_sorted ((mem_combs_range k n t).mp ht).2.1
    ((mem_combs_range k n u).mp hu).2.1 h

/-! ### The program as a whole -/

theorem stoull_lt {s : Str} {v pos : Nat} (h : stoull s = .ok (v, pos)) : v < 2 ^ 64 := by
  unfold stoull at h
  split at h
  rename_i neg ds p _
  split_ifs at h with h1 h2 h3
  · simp only [Except.ok.injEq, Prod.mk.injEq] at h
    rw [← h.1]
    exact Nat.mod_lt _ (by norm_num)
  · simp only [Except.ok.injEq, Prod.mk.injEq] at h
    omega

theorem read_k_lt {arg : Str} {b : Bool} {k : Nat} {err : Str}
    (h : read_k arg 0 = (b, k, err)) : k < 2 ^ 64 := by
  unfold read_k at h
  split at h
  · simp only [Prod.mk.injEq] at h
    omega
  · simp only [Prod.mk.injEq] at h
    omega
  · rename_i v converted hs
    have := stoull_lt hs
    split_ifs at h <;> simp only [Prod.mk.injEq] at h <;> omega

theorem read_separator_snd (arg : Str) :
    (read_separator arg [',']).2 = if arg = ['-', 't'] then ['\t'] else [','] := by
  unfold read_separator
  split_ifs <;> rfl

/-- What a run of `main` that returns has done. -/
theorem main_inv {cap : Nat} {args : List Str} {stdin : Str} {r : Result}
    (h : main cap args stdin = .ok r) :
    (r.exit_code = 0 → r.CHOOSE_K ≠ 0 →
      print_all r.OUTPUT_SEPARATOR r.INPUT_VECTOR r.CHOOSE_K
        = .ok { stdout := r.stdout, emitted := r.emitted }) ∧
    (r.exit_code ≠ 0 ∨ r.CHOOSE_K = 0 → r.stdout = [] ∧ r.emitted = []) ∧
    r.CHOOSE_K < 2 ^ 64 ∧
    (2 ≤ args.length →
      r.OUTPUT_SEPARATOR = if args.headD [] = ['-', 't'] then ['\t'] else [',']) ∧
    (r.exit_code ≠ 1 → 2 ≤ args.length) := by
  unfold main at h
  simp only [] at h
  generalize (if (read_separator (args.headD []) [',']).1 = true then List.drop 1 args
    else args) = argv at h
  split at h
  · cases h
    simp
    omega
  · have h2 : 2 ≤ args.length := by omega
    split at h
    · cases h
      simp [read_separator_snd, h2]
    · split at h
      · rename_i k err hk
        cases h
        have hlt := read_k_lt hk
        norm_num at hlt
        simp [read_separator_snd, hlt, h2]
      · rename_i k err hk
        split at h
        · rename_i h3
          cases h
          simp [read_separator_snd, h3, h2]
        · split at h
          · cases h
          · rename_i input hin
            split at h
            · cases h
            · rename_i out hout
              cases h
              refine ⟨fun _ _ => hout, ?_, read_k_lt hk, fun _ => read_separator_snd _,
                fun _ => h2⟩
              rintro (h0 | h0)
              · exact absurd rfl h0
              · rename_i hne _ _
                exact absurd h0 hne

/-- The length of a non-empty list of strings joined by a separator. -/
theorem length_intercalate (sep : Str) :
    ∀ (l : List Str), l ≠ [] →
      (List.intercalate sep l).length = (l.map List.length).sum + (l.length - 1) * sep.length
  | [], h => absurd rfl h
  | [x], _ => by simp [List.intercalate, List.intersperse]
  | x :: y :: zs, _ => by
    have ih := length_intercalate sep (y :: zs) (by simp)
    simp only [List.intercalate] at ih
    simp only [List.intercalate, List.intersperse, List.flatten_cons, List.length_append, ih,
      List.map_cons, List.sum_cons, List.length_cons]
    simp only [Nat.add_sub_cancel]
    ring

/-! ### Range expansion -/

theorem generate_list_eq (s : Int) (hs : s = 1 ∨ s = -1) :
    ∀ (n : Nat) (x : Int),
      (∀ i : Nat, i < n → -(2 ^ 63) ≤ x + s * (i : Int) ∧ x + s * (i : Int) < 2 ^ 63) →
      generate_list n { start_ := x, inc_ := s }
        = (List.range n).map (fun (i : Nat) => to_string (x + s * (i : Int)))
  | 0, _, _ => rfl
  | n + 1, x, h => by
    rw [generate_list, List.range_succ_eq_map, List.map_cons, List.map_map]
    simp only [range_generator.call, Nat.cast_zero, mul_zero, add_zero, List.cons.injEq,
      true_and]
    cases n with
    | zero => rfl
    | succ m =>
      have h1 := h 1 (by omega)
      have hw : wrap64 (x + s) = x + s := by
        apply wrap64_of_range <;> rcases hs with rfl | rfl <;> omega
      rw [hw, generate_list_eq s hs (m + 1) (x + s)]
      · apply List.map_congr_left
        intro i _
        simp only [Function.comp_apply, Nat.succ_eq_add_one, Nat.cast_add, Nat.cast_one]
        congr 1
        ring
      · intro i hi
        have h2 := h (i + 1) (by omega)
        have e : x + s + s * (i : Int) = x + s * ((i + 1 : Nat) : Int) := by
          push_cast
          ring
        rw [e]
        exact h2

theorem range_last (first last : Int) :
    first + range_step first last * ((range_count first last - 1 : Nat) : Int) = last := by
  unfold range_step range_count
  split_ifs <;> omega

theorem resize_shrink (cap : Nat) (v : List Str) (n : Nat) (h : n ≤ v.length) :
    resize cap v n = .ok (v.take n) := by
  unfold resize
  rw [if_pos h]

theorem resize_grow (cap : Nat) (v : List Str) (n : Nat) (h1 : v.length < n) (h2 : n ≤ cap) :
    resize cap v n = .ok (v ++ List.replicate (n - v.length) []) := by
  unfold resize
  rw [if_neg (by omega), if_pos h2]

theorem resize_throws (cap : Nat) (v : List Str) (n : Nat) (h1 : v.length < n) (h2 : cap < n) :
    resize cap v n = .error .cannot_grow := by
  unfold resize
  rw [if_neg (by omega), if_neg (by omega)]

/-- A `resize` that succeeds still succeeds, with the same result, when the vector can be
grown further. -/
theorem resize_mono {cap0 cap : Nat} (hc : cap0 ≤ cap) {v w : List Str} {n : Nat}
    (h : resize cap0 v n = .ok w) : resize cap v n = .ok w := by
  unfold resize at h ⊢
  by_cases h1 : n ≤ v.length
  · rw [if_pos h1] at h ⊢
    exact h
  · rw [if_neg h1] at h ⊢
    by_cases h2 : n ≤ cap0
    · rw [if_pos h2] at h
      rw [if_pos (by omega)]
      exact h
    · rw [if_neg h2] at h
      cases h

/-- The size `input_range` asks `resize` for when the span is representable. -/
theorem input_range_new_size (first last : Int) (v : List Str)
    (hspan : range_count first last < 2 ^ 63)
    (hsize : v.length + range_count first last < 2 ^ 64) :
    (((v.length : Int)
        + wrap64 (wrap64 (if first < last then last - first else first - last) + 1))
      % 2 ^ 64).toNat = v.length + range_count first last := by
  have hcount : wrap64 (wrap64 (if first < last then last - first else first - last) + 1)
      = (range_count first last : Int) := by
    unfold range_count at hspan ⊢
    by_cases h : first < last
    · simp only [if_pos h] at hspan ⊢
      have e1 : wrap64 (last - first) = last - first := wrap64_of_range (by omega) (by omega)
      rw [e1, wrap64_of_range (by omega) (by omega)]
      omega
    · simp only [if_neg h] at hspan ⊢
      have e1 : wrap64 (first - last) = first - last := wrap64_of_range (by omega) (by omega)
      rw [e1, wrap64_of_range (by omega) (by omega)]
      omega
  rw [hcount]
  omega

/-- `input_range` on bounds whose span is representable appends the tokens of the range when
the vector can be grown by the span. -/
theorem input_range_ok (cap : Nat) (first last : Int) (v : List Str)
    (hf : -(2 ^ 63) ≤ first ∧ first < 2 ^ 63) (hl : -(2 ^ 63) ≤ last ∧ last < 2 ^ 63)
    (hspan : range_count first last < 2 ^ 63)
    (hsize : v.length + range_count first last < 2 ^ 64)
    (hcap : v.length + range_count first last ≤ cap) :
    input_range cap first last v = .ok (.ok (v ++ range_tokens first last)) := by
  have hpos : 0 < range_count first last := by
    unfold range_count
    omega
  unfold input_range
  simp only [input_range_new_size first last v hspan hsize]
  rw [resize_grow cap v _ (by omega) hcap]
  have hlen : v.length + range_count first last - v.length = range_count first last := by
    omega
  simp only [hlen]
  unfold generate
  rw [if_pos (by simp)]
  simp only [List.length_append, List.length_replicate, Nat.add_sub_cancel_left,
    List.take_left', range_generator.mk_range]
  rw [generate_list_eq _ (by split_ifs <;> simp)]
  · rfl
  · intro i hi
    unfold range_count at hi
    split_ifs <;> omega

/-- `input_range` on bounds whose span is representable appends nothing and lets the
exception of `resize` out when the vector cannot be grown by the span. -/
theorem input_range_throws (cap : Nat) (first last : Int) (v : List Str)
    (hspan : range_count first last < 2 ^ 63)
    (hsize : v.length + range_count first last < 2 ^ 64)
    (hcap : cap < v.length + range_count first last) :
    input_range cap first last v = .ok (.error .cannot_grow) := by
  have hpos : 0 < range_count first last := by
    unfold range_count
    omega
  unfold input_range
  simp only [input_range_new_size first last v hspan hsize]
  rw [resize_throws cap v _ (by omega) hcap]

/-- What `input_range` does when `resize` succeeds, it does with the same result when the
vector can be grown further. -/
theorem input_range_mono {cap0 cap : Nat} (hc : cap0 ≤ cap) (first last : Int) (v : List Str)
    (x : Except Fault (Except ResizeError (List Str)))
    (h : input_range cap0 first last v = x) (hx : x ≠ .ok (.error .cannot_grow)) :
    input_range cap first last v = x := by
  unfold input_range at h ⊢
  simp only [] at h ⊢
  cases hr : resize cap0 v
      (((v.length : Int)
          + wrap64 (wrap64 (if first < last then last - first else first - last) + 1))
        % 2 ^ 64).toNat with
  | error e =>
    rw [hr] at h
    cases e
    exact absurd h.symm hx
  | ok w =>
    rw [hr] at h
    rw [resize_mono hc hr]
    exact h

/-! ### Decimal strings -/

theorem digitChar_isDigit {d : Nat} (h : d < 10) : (Nat.digitChar d).isDigit = true := by
  interval_cases d <;> decide

theorem digitChar_value {d : Nat} (h : d < 10) : (Nat.digitChar d).toNat - 48 = d := by
  interval_cases d <;> decide

theorem isDigit_ne_minus {c : Char} (h : c.isDigit = true) : c ≠ '-' := by
  rintro rfl
  exact absurd h (by decide)

theorem isDigit_ne_plus {c : Char} (h : c.isDigit = true) : c ≠ '+' := by
  rintro rfl
  exact absurd h (by decide)

theorem isDigit_not_isspace {c : Char} (h : c.isDigit = true) : isspace c = false := by
  have h1 : c ≠ ' ' := by rintro rfl; exact absurd h (by decide)
  have h2 : c ≠ '\t' := by rintro rfl; exact absurd h (by decide)
  have h3 : c ≠ '\n' := by rintro rfl; exact absurd h (by decide)
  have h4 : c ≠ '\x0b' := by rintro rfl; exact absurd h (by decide)
  have h5 : c ≠ '\x0c' := by rintro rfl; exact absurd h (by decide)
  have h6 : c ≠ '\r' := by rintro rfl; exact absurd h (by decide)
  simp [isspace, h1, h2, h3, h4, h5, h6]

theorem digits_value_append (l : Str) (c : Char) :
    digits_value (l ++ [c]) = digits_value l * 10 + (c.toNat - 48) := by
  simp [digits_value, List.foldl_append]

theorem nat_to_string_aux_eq : ∀ (fuel n : Nat), n < fuel →
    nat_to_string_aux fuel n = nat_to_string_aux (n + 1) n
  | 0, _, h => absurd h (Nat.not_lt_zero _)
  | fuel + 1, n, h => by
    rw [nat_to_string_aux, nat_to_string_aux]
    split_ifs with h10
    · rfl
    · rw [nat_to_string_aux_eq fuel (n / 10) (by omega),
        nat_to_string_aux_eq n (n / 10) (by omega)]

/-- The recursion that defines the decimal digits. -/
theorem nat_to_string_eq (n : Nat) :
    nat_to_string n
      = if n < 10 then [Nat.digitChar n]
        else nat_to_string (n / 10) ++ [Nat.digitChar (n % 10)] := by
  unfold nat_to_string
  rw [nat_to_string_aux]
  split_ifs with h10
  · rfl
  · rw [nat_to_string_aux_eq n (n / 10) (by omega)]

theorem nat_to_string_ne_nil (n : Nat) : nat_to_string n ≠ [] := by
  rw [nat_to_string_eq]
  split_ifs <;> simp

theorem nat_to_string_isDigit : ∀ (n : Nat), ∀ c ∈ nat_to_string n, c.isDigit = true := by
  intro n
  induction n using Nat.strong_induction_on with
  | _ n ih =>
    intro c hc
    rw [nat_to_string_eq] at hc
    split_ifs at hc with h
    · rw [List.mem_singleton.mp hc]
      exact digitChar_isDigit h
    · rcases List.mem_append.mp hc with h1 | h1
      · exact ih (n / 10) (by omega) c h1
      · rw [List.mem_singleton.mp h1]
        exact digitChar_isDigit (by omega)

theorem digits_value_nat_to_string : ∀ (n : Nat), digits_value (nat_to_string n) = n := by
  intro n
  induction n using Nat.strong_induction_on with
  | _ n ih =>
    rw [nat_to_string_eq]
    split_ifs with h
    · simp [digits_value, digitChar_value h]
    · rw [digits_value_append, ih (n / 10) (by omega), digitChar_value (by omega)]
      omega

theorem is_digits_nat_to_string (n : Nat) : is_digits (nat_to_string n) = true := by
  simp only [is_digits, Bool.and_eq_true, decide_eq_true_eq, List.all_eq_true]
  exact ⟨nat_to_string_ne_nil n, nat_to_string_isDigit n⟩

theorem minus_not_mem_of_digits {ds : Str} (h : ∀ c ∈ ds, c.isDigit = true) : '-' ∉ ds :=
  fun hm => isDigit_ne_minus (h _ hm) rfl

/-- The subject sequence of a run of digits is the run itself. -/
theorem scan_integer_digits {ds : Str} (hne : ds ≠ []) (h : ∀ c ∈ ds, c.isDigit = true) :
    scan_integer ds = (false, ds, ds.length) := by
  obtain ⟨c, t, rfl⟩ := List.exists_cons_of_ne_nil hne
  have hc := h c (List.mem_cons_self c t)
  have htw : List.takeWhile Char.isDigit (c :: t) = c :: t :=
    List.takeWhile_eq_self_iff.mpr h
  unfold scan_integer
  simp only [List.takeWhile_cons, List.dropWhile_cons, isDigit_not_isspace hc]
  simp only [Bool.false_eq_true, if_false, List.length_nil, Nat.zero_add]
  split
  · rename_i heq
    exact absurd (List.cons.inj heq).1 (isDigit_ne_minus hc)
  · rename_i heq
    exact absurd (List.cons.inj heq).1 (isDigit_ne_plus hc)
  · rw [htw]

/-- The subject sequence of a minus sign followed by a run of digits. -/
theorem scan_integer_minus_digits {ds : Str} (h : ∀ c ∈ ds, c.isDigit = true) :
    scan_integer ('-' :: ds) = (true, ds, ds.length + 1) := by
  have htw : List.takeWhile Char.isDigit ds = ds := List.takeWhile_eq_self_iff.mpr h
  unfold scan_integer
  have : isspace '-' = false := by decide
  simp only [List.takeWhile_cons, List.dropWhile_cons, this]
  simp [htw, Nat.add_comm]

/-- `std::stoll` reads back what `std::to_string` wrote. -/
theorem stoll_to_string (x : Int) (h1 : -(2 ^ 63) ≤ x) (h2 : x < 2 ^ 63) :
    stoll (to_string x) = .ok (x, (to_string x).length) := by
  unfold stoll to_string
  split_ifs with hneg
  · rw [scan_integer_minus_digits (nat_to_string_isDigit _)]
    simp only [nat_to_string_ne_nil, if_false, if_true, digits_value_nat_to_string,
      List.length_cons]
    have hx : -((x.natAbs : Nat) : Int) = x := by omega
    rw [hx, if_neg (by omega)]
  · rw [scan_integer_digits (nat_to_string_ne_nil _) (nat_to_string_isDigit _)]
    simp only [nat_to_string_ne_nil, if_false, digits_value_nat_to_string]
    have hx : ((x.natAbs : Nat) : Int) = x := by omega
    simp only [Bool.false_eq_true, if_false, hx]
    rw [if_neg (by omega)]

/-! ### Splitting a range token -/

theorem find_cons_self (c : Char) (r : Str) : find (c :: r) c = some 0 := by
  simp [find]

theorem find_append_cons {l : Str} {c : Char} (h : c ∉ l) (r : Str) :
    find (l ++ c :: r) c = some l.length := by
  simp [find, List.indexOf_append_of_not_mem h]

theorem find_of_not_mem {l : Str} {c : Char} (h : c ∉ l) : find l c = none := by
  simp [find, h]

theorem rfind_of_not_mem {l : Str} {c : Char} (h : c ∉ l) : rfind l c = none := by
  simp [rfind, h]

theorem rfind_append_cons (l : Str) {c : Char} {r : Str} (h : c ∉ r) :
    rfind (l ++ c :: r) c = some l.length := by
  have hr : c ∉ r.reverse := by simpa using h
  have hi : List.indexOf c (l ++ c :: r).reverse = r.length := by
    rw [List.reverse_append, List.reverse_cons, List.append_assoc,
      List.indexOf_append_of_not_mem hr]
    simp
  unfold rfind
  rw [if_pos (by simp), hi]
  congr 1
  simp only [List.length_append, List.length_cons]
  omega

theorem dash_pos_plain {dA dB : Str} (hA : '-' ∉ dA) (hB : '-' ∉ dB) :
    dash_pos (dA ++ '-' :: dB) = some dA.length := by
  unfold dash_pos
  simp only [rfind_append_cons dA hB, find_append_cons hA dB, ne_eq, not_true_eq_false,
    if_false]

theorem dash_pos_right_minus {dA dB : Str} (hne : dA ≠ []) (hA : '-' ∉ dA) (hB : '-' ∉ dB) :
    dash_pos (dA ++ '-' :: '-' :: dB) = some dA.length := by
  have hl : rfind (dA ++ '-' :: '-' :: dB) '-' = some (dA.length + 1) := by
    have := rfind_append_cons (dA ++ ['-']) hB
    simpa using this
  have hlen : dA.length ≠ 0 := by simpa using hne
  unfold dash_pos
  simp only [hl, find_append_cons hA ('-' :: dB)]
  rw [if_pos (by simp), if_neg (by simpa using hlen)]

theorem dash_pos_left_minus {dA dB : Str} (hne : dA ≠ []) (hA : '-' ∉ dA) (hB : '-' ∉ dB) :
    dash_pos ('-' :: dA ++ '-' :: dB) = some (dA.length + 1) := by
  have hl : rfind ('-' :: dA ++ '-' :: dB) '-' = some (dA.length + 1) := by
    have := rfind_append_cons ('-' :: dA) hB
    simpa using this
  have hf : find ('-' :: dA ++ '-' :: dB) '-' = some 0 := find_cons_self _ _
  obtain ⟨n, hn⟩ : ∃ n, dA.length = n + 1 :=
    ⟨dA.length - 1, by have : dA.length ≠ 0 := by simpa using hne
                       omega⟩
  have hget : ('-' :: dA ++ '-' :: dB)[dA.length + 1 - 1]? ≠ some '-' := by
    rw [Nat.add_sub_cancel, hn, List.cons_append, List.getElem?_cons_succ,
      List.getElem?_append_left (by omega)]
    intro h
    exact hA (List.getElem?_mem h)
  unfold dash_pos
  simp only [hl, hf]
  rw [if_pos (by simp), if_pos trivial]
  simp only [hget, if_false]

theorem dash_pos_both_minus {dA dB : Str} (hB : '-' ∉ dB) :
    dash_pos ('-' :: dA ++ '-' :: '-' :: dB) = some (dA.length + 1) := by
  have hl : rfind ('-' :: dA ++ '-' :: '-' :: dB) '-' = some (dA.length + 2) := by
    have := rfind_append_cons ('-' :: dA ++ ['-']) hB
    simpa using this
  have hf : find ('-' :: dA ++ '-' :: '-' :: dB) '-' = some 0 := find_cons_self _ _
  have hget : ('-' :: dA ++ '-' :: '-' :: dB)[dA.length + 2 - 1]? = some '-' := by
    rw [show dA.length + 2 - 1 = dA.length + 1 by omega, List.cons_append,
      List.getElem?_cons_succ, List.getElem?_append_right (Nat.le_refl _)]
    simp
  unfold dash_pos
  simp only [hl, hf]
  rw [if_pos (by simp), if_pos trivial]
  simp only [hget, if_true]
  rfl

theorem to_string_of_nonneg {x : Int} (h : 0 ≤ x) : to_string x = nat_to_string x.natAbs := by
  unfold to_string
  rw [if_neg (by omega)]

theorem to_string_of_neg {x : Int} (h : x < 0) :
    to_string x = '-' :: nat_to_string x.natAbs := by
  unfold to_string
  rw [if_pos h]

theorem to_string_ne_nil (x : Int) : to_string x ≠ [] := by
  unfold to_string
  split_ifs
  · simp
  · exact nat_to_string_ne_nil _

theorem minus_not_mem_nat_to_string (n : Nat) : '-' ∉ nat_to_string n :=
  minus_not_mem_of_digits (nat_to_string_isDigit n)

theorem find_to_string (x : Int) :
    ¬ (find (to_string x) '-' ≠ none ∧ find (to_string x) '-' ≠ some 0) := by
  by_cases h : x < 0
  · rw [to_string_of_neg h, find_cons_self]
    simp
  · rw [to_string_of_nonneg (by omega), find_of_not_mem (minus_not_mem_nat_to_string _)]
    simp

/-- The token `decimal(a) - decimal(b)` is split at the dash between the two numbers. -/
theorem dash_pos_range_token (a b : Int) :
    dash_pos (to_string a ++ '-' :: to_string b) = some (to_string a).length := by
  have hA := minus_not_mem_nat_to_string a.natAbs
  have hB := minus_not_mem_nat_to_string b.natAbs
  have hAne := nat_to_string_ne_nil a.natAbs
  by_cases ha : a < 0 <;> by_cases hb : b < 0
  · rw [to_string_of_neg ha, to_string_of_neg hb]
    exact dash_pos_both_minus hB
  · rw [to_string_of_neg ha, to_string_of_nonneg (by omega)]
    exact dash_pos_left_minus hAne hA hB
  · rw [to_string_of_nonneg (by omega), to_string_of_neg hb]
    exact dash_pos_right_minus hAne hA hB
  · rw [to_string_of_nonneg (by omega), to_string_of_nonneg (by omega)]
    exact dash_pos_plain hA hB

/-- `read_range` on the decimal strings of two `big_int` values goes on to `input_range`. -/
theorem read_range_to_string (cap : Nat) (a b : Int) (v : List Str)
    (ha : -(2 ^ 63) ≤ a ∧ a < 2 ^ 63) (hb : -(2 ^ 63) ≤ b ∧ b < 2 ^ 63) :
    read_range cap (to_string a) (to_string b) v
      = match input_range cap a b v with
        | .error e => .error e
        | .ok (.error _) => .ok (false, v)
        | .ok (.ok w) => .ok (true, w) := by
  have hla : ¬ ((to_string a).length = 0 ∨ (to_string b).length = 0) := by
    simp [to_string_ne_nil]
  unfold read_range
  rw [if_neg hla, if_neg (find_to_string a), if_neg (find_to_string b)]
  simp only [stoll_to_string a ha.1 ha.2, stoll_to_string b hb.1 hb.2, ne_eq,
    not_true_eq_false, if_false]

/-- `read_element` on the token `decimal(a) - decimal(b)` goes on to `input_range a b`, and
keeps the token as one string when that throws. -/
theorem read_element_range_token (cap : Nat) (a b : Int) (v : List Str)
    (ha : -(2 ^ 63) ≤ a ∧ a < 2 ^ 63) (hb : -(2 ^ 63) ≤ b ∧ b < 2 ^ 63) :
    read_element cap (to_string a ++ '-' :: to_string b) v
      = match input_range cap a b v with
        | .error e => .error e
        | .ok (.error _) => .ok (v ++ [to_string a ++ '-' :: to_string b])
        | .ok (.ok w) => .ok w := by
  have hp : (to_string a).length ≠ 0 := by simp [to_string_ne_nil]
  unfold read_element
  rw [dash_pos_range_token]
  simp only [ne_eq, hp, not_false_eq_true, if_true, List.take_left]
  rw [show (to_string a).length + 1 = (to_string a ++ ['-']).length by simp,
    show to_string a ++ '-' :: to_string b = (to_string a ++ ['-']) ++ to_string b by simp,
    List.drop_left, read_range_to_string cap a b v ha hb]
  rcases input_range cap a b v with f | (e | w) <;> rfl

theorem read_elements_singleton (cap : Nat) (tok : Str) (v : List Str) :
    read_elements cap [tok] v = read_element cap tok v := by
  unfold read_elements
  cases read_element cap tok v <;> rfl

theorem read_elements_cons (cap : Nat) (tok : Str) (rest v w : List Str)
    (h : read_element cap tok v = .ok w) :
    read_elements cap (tok :: rest) v = read_elements cap rest w := by
  rw [read_elements, h]

/-- What `read_range` does other than returning false, it does in the same way when the
vector can be grown further. -/
theorem read_range_mono_of_ne {cap0 cap : Nat} (hc : cap0 ≤ cap) (left right : Str)
    (v : List Str) (x : Except Fault (Bool × List Str))
    (h : read_range cap0 left right v = x) (hx : x ≠ .ok (false, v)) :
    read_range cap left right v = x := by
  unfold read_range at h ⊢
  split_ifs at h ⊢ with h1 h2 h3
  · exact h
  · exact h
  · exact h
  · cases hsl : stoll left with
    | error e =>
      rw [hsl] at h
      exact h
    | ok y =>
      obtain ⟨first, pos⟩ := y
      rw [hsl] at h
      simp only [] at h ⊢
      split_ifs at h ⊢ with h4
      · exact h
      · cases hsr : stoll right with
        | error e =>
          rw [hsr] at h
          exact h
        | ok z =>
          obtain ⟨last, pos2⟩ := z
          rw [hsr] at h
          simp only [] at h ⊢
          split_ifs at h ⊢ with h5
          · exact h
          · cases hin : input_range cap0 first last v with
            | error f =>
              rw [hin] at h
              rw [input_range_mono hc first last v _ hin (by simp)]
              exact h
            | ok y2 =>
              cases y2 with
              | error e =>
                rw [hin] at h
                exact absurd h.symm hx
              | ok w2 =>
                rw [hin] at h
                rw [input_range_mono hc first last v _ hin (by simp)]
                exact h

/-- A range that `read_range` expands is expanded in the same way when the vector can be
grown further. -/
theorem read_range_mono {cap0 cap : Nat} (hc : cap0 ≤ cap) (left right : Str)
    (v w : List Str) (h : read_range cap0 left right v = .ok (true, w)) :
    read_range cap left right v = .ok (true, w) :=
  read_range_mono_of_ne hc left right v _ h (by simp)

/-- An error in `read_range` is there however far the vector can be grown. -/
theorem read_range_fault_mono {cap0 cap : Nat} (hc : cap0 ≤ cap) (left right : Str)
    (v : List Str) (f : Fault) (h : read_range cap0 left right v = .error f) :
    read_range cap left right v = .error f :=
  read_range_mono_of_ne hc left right v _ h (by simp)

/-- When the vector can be grown to any size a `size_t` holds, `resize` does not throw. -/
theorem input_range_no_throw (first last : Int) (v : List Str) (e : ResizeError) :
    input_range (2 ^ 64) first last v ≠ .ok (.error e) := by
  unfold input_range
  simp only []
  have hn : (((v.length : Int)
        + wrap64 (wrap64 (if first < last then last - first else first - last) + 1))
      % 2 ^ 64).toNat ≤ 2 ^ 64 := by
    omega
  generalize (((v.length : Int)
        + wrap64 (wrap64 (if first < last then last - first else first - last) + 1))
      % 2 ^ 64).toNat = n at hn
  unfold resize
  by_cases h1 : n ≤ v.length
  · rw [if_pos h1]
    simp only []
    cases generate (List.take n v) v.length (range_generator.mk_range first last) <;> simp
  · rw [if_neg h1, if_pos hn]
    simp only []
    cases generate (v ++ List.replicate (n - v.length) []) v.length
      (range_generator.mk_range first last) <;> simp

/-- A pair of pieces that `read_range` turns down although `resize` cannot throw is turned
down however far the vector can be grown. -/
theorem read_range_false_of_no_throw (cap : Nat) (left right : Str) (v w : List Str)
    (h : read_range (2 ^ 64) left right v = .ok (false, w)) :
    read_range cap left right v = .ok (false, v) := by
  unfold read_range at h ⊢
  split_ifs at h ⊢ with h1 h2 h3
  · rfl
  · rfl
  · rfl
  · cases hsl : stoll left with
    | error e => rfl
    | ok x =>
      obtain ⟨first, pos⟩ := x
      rw [hsl] at h
      simp only [] at h ⊢
      split_ifs at h ⊢ with h4
      · rfl
      · cases hsr : stoll right with
        | error e => rfl
        | ok y =>
          obtain ⟨last, pos2⟩ := y
          rw [hsr] at h
          simp only [] at h ⊢
          split_ifs at h ⊢ with h5
          · rfl
          · exfalso
            cases hin : input_range (2 ^ 64) first last v with
            | error f =>
              rw [hin] at h
              cases h
            | ok x =>
              cases x with
              | error e => exact input_range_no_throw first last v e hin
              | ok w2 =>
                rw [hin] at h
                cases h

/-- The arguments `settled` accepts are read in the same way however much further the vector
can be grown. -/
theorem read_elements_settled {cap0 cap : Nat} (hc : cap0 ≤ cap) :
    ∀ (args v : List Str), settled cap0 args v = true →
      read_elements cap args v = read_elements cap0 args v
  | [], _, _ => rfl
  | arg :: rest, v, hs => by
    unfold settled at hs
    unfold read_elements read_element input_string
    cases hp : dash_pos arg with
    | none =>
      rw [hp] at hs
      exact read_elements_settled hc rest _ hs
    | some p =>
      rw [hp] at hs
      simp only [] at hs ⊢
      by_cases hp0 : p = 0
      · rw [if_pos hp0] at hs
        rw [if_neg (not_not.mpr hp0), if_neg (not_not.mpr hp0)]
        exact read_elements_settled hc rest _ hs
      · rw [if_neg hp0] at hs
        rw [if_pos hp0, if_pos hp0]
        cases hr : read_range cap0 (arg.take p) (arg.drop (p + 1)) v with
        | error f =>
          rw [hr] at hs
          cases hs
        | ok x =>
          obtain ⟨b, w⟩ := x
          cases b with
          | true =>
            rw [hr] at hs
            rw [read_range_mono hc _ _ v w hr]
            exact read_elements_settled hc rest _ hs
          | false =>
            rw [hr] at hs
            simp only [Bool.and_eq_true, decide_eq_true_eq] at hs
            have hw : w = v := by
              have := read_range_false_of_no_throw cap0 _ _ v _ hs.1
              rw [hr] at this
              cases this
              rfl
            subst hw
            rw [read_range_false_of_no_throw cap _ _ w _ hs.1]
            exact read_elements_settled hc rest _ hs.2

/-- What `read_elements` returns for arguments `settled` accepts, it returns however much
further the vector can be grown. -/
theorem read_elements_of_settled {cap0 cap : Nat} (hc : cap0 ≤ cap) (args v w : List Str)
    (hs : settled cap0 args v = true) (h : read_elements cap0 args v = .ok w) :
    read_elements cap args v = .ok w := by
  rw [read_elements_settled hc args v hs, h]

theorem range_count_eq (first last : Int) :
    (range_count first last : Int) = |last - first| + 1 := by
  unfold range_count
  rcases abs_cases (last - first) with ⟨h, _⟩ | ⟨h, _⟩ <;> rw [h] <;> split_ifs <;> omega

/-! ### Literal fallback -/

/-- `read_range` fails, and leaves the input sequence alone, when a side is empty or is not
consumed in full by `std::stoll`. -/
theorem read_range_false (cap : Nat) (left right : Str) (v : List Str)
    (h : left = [] ∨ right = [] ∨ parses_in_full left = false ∨ parses_in_full right = false) :
    read_range cap left right v = .ok (false, v) := by
  unfold read_range
  split_ifs with h1 h2 h3
  · rfl
  · rfl
  · rfl
  · have hl : left ≠ [] := fun e => h1 (Or.inl (by simp [e]))
    have hr : right ≠ [] := fun e => h1 (Or.inr (by simp [e]))
    split
    · rfl
    · rename_i first pos hsl
      split_ifs with h4
      · rfl
      · split
        · rfl
        · rename_i last pos2 hsr
          split_ifs with h5
          · rfl
          · exfalso
            have pl : parses_in_full left = true := by
              simp only [parses_in_full, hsl]
              simpa using h4
            have pr : parses_in_full right = true := by
              simp only [parses_in_full, hsr]
              simpa using h5
            rcases h with h | h | h | h
            · exact hl h
            · exact hr h
            · rw [pl] at h
              cases h
            · rw [pr] at h
              cases h

theorem dash_pos_of_not_mem {tok : Str} (h : '-' ∉ tok) : dash_pos tok = none := by
  unfold dash_pos
  simp [find_of_not_mem h, rfind_of_not_mem h]

/-- `read_element` appends the token itself when there is no split position, when the split
position is 0, or when `read_range` fails on the two pieces. -/
theorem read_element_literal (cap : Nat) (tok : Str) (v : List Str)
    (h : dash_pos tok = none ∨ dash_pos tok = some 0 ∨
      ∃ p, dash_pos tok = some p ∧
        read_range cap (tok.take p) (tok.drop (p + 1)) v = .ok (false, v)) :
    read_element cap tok v = .ok (v ++ [tok]) := by
  unfold read_element
  rcases h with h | h | ⟨p, h, hr⟩
  · rw [h]
    rfl
  · rw [h]
    rfl
  · rw [h]
    simp only [hr]
    split_ifs <;> rfl

theorem read_elements_cons_literal (cap : Nat) (tok : Str) (rest v : List Str)
    (h : read_element cap tok v = .ok (v ++ [tok])) :
    read_elements cap (tok :: rest) v = read_elements cap rest (v ++ [tok]) := by
  rw [read_elements, h]

/-- A string `-?[0-9]+` whose value is not a `long long` makes `std::stoll` throw. -/
theorem stoll_out_of_range (s : Str) (hd : is_decimal s = true)
    (hv : decimal_value s < -(2 ^ 63) ∨ 2 ^ 63 ≤ decimal_value s) :
    stoll s = .error .out_of_range := by
  have key : ∀ (ds : Str), is_digits ds = true → ds ≠ [] ∧ ∀ c ∈ ds, c.isDigit = true := by
    intro ds h
    simp only [is_digits, Bool.and_eq_true, decide_eq_true_eq, List.all_eq_true] at h
    exact h
  unfold is_decimal at hd
  unfold decimal_value at hv
  unfold stoll
  split at hd
  · rename_i t
    obtain ⟨hne, hdig⟩ := key t hd
    simp only at hv
    rw [scan_integer_minus_digits hdig]
    simp only [hne, if_false, if_true]
    rw [if_pos hv]
  · rename_i hnm
    obtain ⟨hne, hdig⟩ := key s hd
    have hv2 : (digits_value s : Int) < -(2 ^ 63) ∨ 2 ^ 63 ≤ (digits_value s : Int) := by
      split at hv
      · rename_i t
        exact absurd rfl (hnm t)
      · exact hv
    rw [scan_integer_digits hne hdig]
    simp only [hne, if_false, Bool.false_eq_true]
    rw [if_pos hv2]

theorem parses_in_full_out_of_range (s : Str) (hd : is_decimal s = true)
    (hv : decimal_value s < -(2 ^ 63) ∨ 2 ^ 63 ≤ decimal_value s) :
    parses_in_full s = false := by
  simp [parses_in_full, stoll_out_of_range s hd hv]

/-! ### The count argument -/

theorem length_takeWhile_eq_iff (p : Char → Bool) (l : Str) :
    (l.takeWhile p).length = l.length ↔ ∀ c ∈ l, p c = true := by
  rw [← List.takeWhile_eq_self_iff]
  constructor
  · intro h
    exact (List.takeWhile_prefix p).eq_of_length h
  · intro h
    rw [h]

/-- The subject sequence in terms of the sign and the text behind it. -/
theorem scan_integer_eq (s : Str) :
    scan_integer s
      = ((sign_and_rest s).1, (sign_and_rest s).2.takeWhile Char.isDigit,
          s.length - (sign_and_rest s).2.length
            + ((sign_and_rest s).2.takeWhile Char.isDigit).length) := by
  have hlen : s.length = (s.takeWhile isspace).length + (s.dropWhile isspace).length := by
    rw [← List.length_append, List.takeWhile_append_dropWhile]
  unfold scan_integer sign_and_rest
  simp only []
  split
  · rename_i t heq
    rw [heq] at hlen
    simp only [Prod.mk.injEq, true_and, List.length_cons] at hlen ⊢
    omega
  · rename_i t heq
    rw [heq] at hlen
    simp only [Prod.mk.injEq, true_and, List.length_cons] at hlen ⊢
    omega
  · simp only [Prod.mk.injEq, true_and]
    omega

theorem length_sign_and_rest_le (s : Str) : (sign_and_rest s).2.length ≤ s.length := by
  have hlen : s.length = (s.takeWhile isspace).length + (s.dropWhile isspace).length := by
    rw [← List.length_append, List.takeWhile_append_dropWhile]
  unfold sign_and_rest
  split
  · rename_i t heq
    rw [heq] at hlen
    simp only [List.length_cons] at hlen ⊢
    omega
  · rename_i t heq
    rw [heq] at hlen
    simp only [List.length_cons] at hlen ⊢
    omega
  · simp only []
    omega

theorem is_digits_iff (ds : Str) :
    is_digits ds = true ↔ ds ≠ [] ∧ ∀ c ∈ ds, c.isDigit = true := by
  simp only [is_digits, Bool.and_eq_true, decide_eq_true_eq, List.all_eq_true]

/-- `read_k` in terms of the sign and the text behind it. -/
theorem read_k_eq (arg : Str) (k0 : Nat) :
    read_k arg k0
      = if (sign_and_rest arg).2.takeWhile Char.isDigit = [] then
          (false, k0, "Invalid argument k\n".toList)
        else if 2 ^ 64 ≤ digits_value ((sign_and_rest arg).2.takeWhile Char.isDigit) then
          (false, k0, "Out of range k\n".toList)
        else if ((sign_and_rest arg).2.takeWhile Char.isDigit).length
            < (sign_and_rest arg).2.length then
          (false,
            if (sign_and_rest arg).1
            then (2 ^ 64 - digits_value ((sign_and_rest arg).2.takeWhile Char.isDigit)) % 2 ^ 64
            else digits_value ((sign_and_rest arg).2.takeWhile Char.isDigit), [])
        else
          (true,
            if (sign_and_rest arg).1
            then (2 ^ 64 - digits_value ((sign_and_rest arg).2.takeWhile Char.isDigit)) % 2 ^ 64
            else digits_value ((sign_and_rest arg).2.takeWhile Char.isDigit), []) := by
  have hle := length_sign_and_rest_le arg
  have htw : ((sign_and_rest arg).2.takeWhile Char.isDigit).length
      ≤ (sign_and_rest arg).2.length := (List.takeWhile_prefix _).length_le
  unfold read_k stoull
  rw [scan_integer_eq]
  simp only []
  by_cases h1 : (sign_and_rest arg).2.takeWhile Char.isDigit = []
  · simp only [h1, if_true]
  · simp only [h1, if_false]
    by_cases h2 : 2 ^ 64 ≤ digits_value ((sign_and_rest arg).2.takeWhile Char.isDigit)
    · simp only [h2, if_true]
    · simp only [h2, if_false]
      by_cases h3 : ((sign_and_rest arg).2.takeWhile Char.isDigit).length
          < (sign_and_rest arg).2.length
      · rw [if_pos h3, if_pos (by omega)]
      · rw [if_neg h3, if_neg (by omega)]

theorem sign_and_rest_digits {ds : Str} (h : is_digits ds = true) :
    sign_and_rest ds = (false, ds) := by
  obtain ⟨hne, hd⟩ := (is_digits_iff ds).mp h
  obtain ⟨c, t, rfl⟩ := List.exists_cons_of_ne_nil hne
  have hc := hd c (List.mem_cons_self c t)
  unfold sign_and_rest
  simp only [List.dropWhile_cons, isDigit_not_isspace hc, Bool.false_eq_true, if_false]
  split
  · rename_i heq
    exact absurd (List.cons.inj heq).1 (isDigit_ne_minus hc)
  · rename_i heq
    exact absurd (List.cons.inj heq).1 (isDigit_ne_plus hc)
  · rfl

/-- When `read_k` accepts, or rejects only for unread characters, the run of digits it read is
all of the text behind the sign exactly when that text is digits only. -/
theorem takeWhile_isDigit_eq_self_iff (rest : Str) :
    ¬ ((rest.takeWhile Char.isDigit).length < rest.length) ↔ ∀ c ∈ rest, c.isDigit = true := by
  have htw : (rest.takeWhile Char.isDigit).length ≤ rest.length :=
    (List.takeWhile_prefix _).length_le
  rw [← length_takeWhile_eq_iff]
  omega

/-! ### The paths through `main` -/

theorem main_of_few_args (cap : Nat) (args : List Str) (stdin : Str) (h : args.length < 2) :
    main cap args stdin = .ok ⟨1, [], usage, [], [], [','], 0⟩ := by
  unfold main
  rw [if_pos (by omega)]

theorem main_of_few_items (cap : Nat) (args : List Str) (stdin : Str) (h1 : 2 ≤ args.length)
    (h2 : (main_argv args).length < 2) :
    main cap args stdin = .ok ⟨2, [], usage, [], [], main_sep args, 0⟩ := by
  unfold main_argv at h2
  unfold main main_sep
  simp only []
  rw [if_neg (by omega), if_pos h2]

theorem main_of_bad_count (cap : Nat) (args : List Str) (stdin : Str) (k : Nat) (err : Str)
    (h1 : 2 ≤ args.length) (h2 : 2 ≤ (main_argv args).length)
    (hk : read_k ((main_argv args).getD ((main_argv args).length - 1) []) 0 = (false, k, err)) :
    main cap args stdin = .ok ⟨3, [], err ++ usage, [], [], main_sep args, k⟩ := by
  unfold main_argv at h2 hk
  unfold main main_sep
  simp only []
  rw [if_neg (by omega), if_neg (by omega), hk]

theorem main_of_zero_count (cap : Nat) (args : List Str) (stdin : Str) (err : Str)
    (h1 : 2 ≤ args.length) (h2 : 2 ≤ (main_argv args).length)
    (hk : read_k ((main_argv args).getD ((main_argv args).length - 1) []) 0 = (true, 0, err)) :
    main cap args stdin = .ok ⟨0, [], [], [], [], main_sep args, 0⟩ := by
  unfold main_argv at h2 hk
  unfold main main_sep
  simp only []
  rw [if_neg (by omega), if_neg (by omega), hk]
  rfl

theorem main_of_count (cap : Nat) (args : List Str) (stdin : Str) (k : Nat) (err : Str)
    (h1 : 2 ≤ args.length) (h2 : 2 ≤ (main_argv args).length)
    (hk : read_k ((main_argv args).getD ((main_argv args).length - 1) []) 0 = (true, k, err))
    (h0 : k ≠ 0) :
    main cap args stdin
      = match (if (main_argv args).length - 1 = 1 ∧ (main_argv args).headD [] = ['-']
            then .ok (cin_words stdin)
            else read_elements cap ((main_argv args).take ((main_argv args).length - 1)) []) with
        | .error e => .error e
        | .ok input =>
          match print_all (main_sep args) input k with
          | .error e => .error e
          | .ok out => .ok ⟨0, out.stdout, [], out.emitted, input, main_sep args, k⟩ := by
  unfold main_argv at h2 hk ⊢
  unfold main main_sep
  simp only []
  rw [if_neg (by omega), if_neg (by omega), hk]
  simp only [h0, if_false]

/-- The exit code of a run of `main` that returns, in terms of the three checks. -/
theorem main_exit_code_of_ok (cap : Nat) (args : List Str) (stdin : Str) (r : Result)
    (h : main cap args stdin = .ok r) (h1 : 2 ≤ args.length) (h2 : 2 ≤ (main_argv args).length)
    (hk : (read_k ((main_argv args).getD ((main_argv args).length - 1) []) 0).1 = true) :
    r.exit_code = 0 := by
  rcases hr : read_k ((main_argv args).getD ((main_argv args).length - 1) []) 0
    with ⟨b, k, err⟩
  rw [hr] at hk
  simp only at hk
  subst hk
  by_cases h0 : k = 0
  · subst h0
    rw [main_of_zero_count cap args stdin err h1 h2 hr] at h
    cases h
    rfl
  · rw [main_of_count cap args stdin k err h1 h2 hr h0] at h
    split at h
    · cases h
    · split at h
      · cases h
      · cases h
        rfl

/-! ### Standard input -/

theorem splitOnP_go_filter (s : Str) :
    ∀ (acc : Str), (List.splitOnP.go isspace s acc).filter (fun w => w ≠ [])
      = spec_words_from acc.reverse s := by
  induction s with
  | nil =>
    intro acc
    simp only [List.splitOnP.go, spec_words_from]
    by_cases h : acc.reverse = []
    · simp [h]
    · simp [h]
  | cons c cs ih =>
    intro acc
    simp only [List.splitOnP.go, spec_words_from]
    by_cases hc : isspace c = true
    · simp only [hc, if_true]
      have := ih []
      simp only [List.reverse_nil] at this
      by_cases h : acc.reverse = []
      · simp [h, List.filter_cons]
        simpa using this
      · simp [h, List.filter_cons]
        simpa using this
    · simp only [hc, if_false]
      have := ih (c :: acc)
      simpa using this

/-- The words `std::cin >> word` delivers are the whitespace-separated words of the
stream. -/
theorem cin_words_eq_spec (stdin : Str) : cin_words stdin = spec_whitespace_words stdin := by
  unfold cin_words spec_whitespace_words List.splitOnP
  exact splitOnP_go_filter stdin []

/-- A run of `main` that gets through the checks with a count `k ≥ 1`, fills the input
sequence with `input` and enumerates it with result `out`. -/
theorem main_of_run (cap : Nat) (args : List Str) (stdin : Str) (k : Nat) (err : Str) (input : List Str)
    (out : Out) (h1 : 2 ≤ args.length) (h2 : 2 ≤ (main_argv args).length)
    (hk : read_k ((main_argv args).getD ((main_argv args).length - 1) []) 0 = (true, k, err))
    (h0 : k ≠ 0)
    (hin : (if (main_argv args).length - 1 = 1 ∧ (main_argv args).headD [] = ['-']
        then (.ok (cin_words stdin) : Except Fault (List Str))
        else read_elements cap ((main_argv args).take ((main_argv args).length - 1)) [])
      = .ok input)
    (hp : print_all (main_sep args) input k = .ok out) :
    main cap args stdin = .ok ⟨0, out.stdout, [], out.emitted, input, main_sep args, k⟩ := by
  rw [main_of_count cap args stdin k err h1 h2 hk h0, hin]
  simp only [hp]

/-! ### A dash inside a piece -/

/-- `read_range` fails when the first dash of a piece is not at position 0. -/
theorem read_range_false_of_dash_check (cap : Nat) (left right : Str) (v : List Str)
    (h : (find left '-' ≠ none ∧ find left '-' ≠ some 0) ∨
      (find right '-' ≠ none ∧ find right '-' ≠ some 0)) :
    read_range cap left right v = .ok (false, v) := by
  unfold read_range
  split_ifs with h1 h2 h3
  · rfl
  · rfl
  · rfl
  · exfalso
    rcases h with h | h
    · exact h2 h
    · exact h3 h

/-- A piece that starts with `-` and has another `-` later is not consumed in full by
`std::stoll`. -/
theorem parses_in_full_minus_inner {t : Str} (h : '-' ∈ t) :
    parses_in_full ('-' :: t) = false := by
  have hnd : ¬ ∀ c ∈ t, c.isDigit = true := fun hall => isDigit_ne_minus (hall _ h) rfl
  have hlen : (t.takeWhile Char.isDigit).length ≠ t.length := by
    intro e
    exact hnd ((length_takeWhile_eq_iff _ _).mp e)
  have hs : scan_integer ('-' :: t)
      = (true, t.takeWhile Char.isDigit, (t.takeWhile Char.isDigit).length + 1) := by
    have : isspace '-' = false := by decide
    unfold scan_integer
    simp only [List.takeWhile_cons, List.dropWhile_cons, this]
    simp [Nat.add_comm]
  unfold parses_in_full stoll
  rw [hs]
  simp only []
  split_ifs
  · rfl
  · rfl
  · simp only [List.length_cons, decide_eq_false_iff_not]
    omega

/-- A piece with a `-` behind its first character either fails the dash check of
`read_range` or is not consumed in full by `std::stoll`. -/
theorem inner_dash_rejected {s : Str} (h : '-' ∈ s.drop 1) :
    (find s '-' ≠ none ∧ find s '-' ≠ some 0) ∨ parses_in_full s = false := by
  cases s with
  | nil => simp at h
  | cons c t =>
    have ht : '-' ∈ t := by simpa using h
    by_cases hc : c = '-'
    · subst hc
      exact Or.inr (parses_in_full_minus_inner ht)
    · left
      have hmem : '-' ∈ c :: t := List.mem_cons_of_mem c ht
      unfold find
      rw [if_pos hmem, List.indexOf_cons_ne _ hc]
      simp

theorem read_range_false_of_inner_dash (cap : Nat) (left right : Str) (v : List Str)
    (h : '-' ∈ left.drop 1 ∨ '-' ∈ right.drop 1) :
    read_range cap left right v = .ok (false, v) := by
  rcases h with h | h
  · rcases inner_dash_rejected h with h2 | h2
    · exact read_range_false_of_dash_check cap left right v (Or.inl h2)
    · exact read_range_false cap left right v (Or.inr (Or.inr (Or.inl h2)))
  · rcases inner_dash_rejected h with h2 | h2
    · exact read_range_false_of_dash_check cap left right v (Or.inr h2)
    · exact read_range_false cap left right v (Or.inr (Or.inr (Or.inr h2)))

/-! ### What `read_range` accepts -/

/-- What `read_range` does enforce when it returns true: both pieces are consumed in full by
`std::stoll` and neither has a `-` behind its first character. -/
theorem read_range_true_inv (cap : Nat) (left right : Str) (v w : List Str)
    (h : read_range cap left right v = .ok (true, w)) :
    parses_in_full left = true ∧ parses_in_full right = true ∧
      '-' ∉ left.drop 1 ∧ '-' ∉ right.drop 1 := by
  have hne : ∀ (x : Except Fault (Bool × List Str)), x = .ok (false, v) → x = .ok (true, w) →
      False := by
    intro x h1 h2
    rw [h1] at h2
    simp at h2
  refine ⟨?_, ?_, ?_, ?_⟩
  · by_contra hl
    exact hne _ (read_range_false cap left right v
      (Or.inr (Or.inr (Or.inl (by simpa using hl))))) h
  · by_contra hr
    exact hne _ (read_range_false cap left right v
      (Or.inr (Or.inr (Or.inr (by simpa using hr))))) h
  · intro hl
    exact hne _ (read_range_false_of_inner_dash cap left right v (Or.inl hl)) h
  · intro hr
    exact hne _ (read_range_false_of_inner_dash cap left right v (Or.inr hr)) h

/-! ### Recursion depth -/

/-- The recorded loop does what the loop does and records, for every call it makes, a
nesting depth at most `k` levels below its own and a stack that has grown by as much as the
depth. -/
theorem print_combination_loop_traced_ok (sep : Str) (input : List Str) :
    ∀ (m begin : Nat), input.length - begin = m → begin ≤ input.length →
      ∀ (k : Nat) (combos : List Nat) (out : Out) (depth : Nat) (calls : List (Nat × Nat)),
        k + 1 < 2 ^ 63 → (∀ p ∈ combos, p < input.length) →
        ∃ L, print_combination_loop_traced sep input combos begin ((k + 1 : Nat) : Int) depth
              out calls
            = .ok (out.extend sep input
                ((combs (k + 1) (List.range' begin m)).map (fun t => combos ++ t)),
                calls ++ L) ∧
          ∀ c ∈ L, c.1 ≤ depth + (k + 1) ∧ c.2 + depth = c.1 + combos.length
  | 0, begin, hm, hb => by
    intro k combos out depth calls _ _
    refine ⟨[], ?_, by simp⟩
    rw [print_combination_loop_traced]
    have : ¬ ((input.length : Int) - (begin : Int) ≥ ((k + 1 : Nat) : Int)) := by omega
    rw [if_neg this]
    simp [combs, Out.extend_nil]
  | m + 1, begin, hm, hb => by
    intro k combos out depth calls hk hv
    have hlt : begin < input.length := by omega
    have ih := print_combination_loop_traced_ok sep input m (begin + 1) (by omega) (by omega)
    rw [print_combination_loop_traced]
    by_cases hc : (input.length : Int) - (begin : Int) ≥ ((k + 1 : Nat) : Int)
    · have hw : wrap64 (((k + 1 : Nat) : Int) - 1) = (k : Int) := by
        rw [wrap64_of_range] <;> omega
      have hv1 : ∀ p ∈ combos ++ [begin], p < input.length := by
        intro p hp
        rcases List.mem_append.mp hp with h | h
        · exact hv p h
        · simpa [List.mem_singleton.mp h] using hlt
      have hrec : ∃ L1, print_combination_traced sep input (combos ++ [begin]) (begin + 1)
            (k : Int) (depth + 1) out calls
          = .ok (out.extend sep input
              ((combs k (List.range' (begin + 1) m)).map (fun t => (combos ++ [begin]) ++ t)),
              calls ++ L1) ∧
          ∀ c ∈ L1, c.1 ≤ depth + (k + 1) ∧ c.2 + depth = c.1 + combos.length := by
        rw [print_combination_traced]
        cases k with
        | zero =>
          refine ⟨[(depth + 1, (combos ++ [begin]).length)], ?_, ?_⟩
          · simp [print_line_ok sep input _ out (by simp) hv1, combs_zero]
          · intro c hc1
            rw [List.mem_singleton.mp hc1]
            simp only [List.length_append, List.length_singleton]
            omega
        | succ j =>
          have hj : ¬ (((j + 1 : Nat) : Int) = 0) := by omega
          rw [if_neg hj]
          obtain ⟨L, hL, hP⟩ := ih j (combos ++ [begin]) out (depth + 1)
            (calls ++ [(depth + 1, (combos ++ [begin]).length)]) (by omega) hv1
          refine ⟨(depth + 1, (combos ++ [begin]).length) :: L, ?_, ?_⟩
          · rw [hL]
            simp
          · intro c hc1
            rcases List.mem_cons.mp hc1 with h | h
            · rw [h]
              simp only [List.length_append, List.length_singleton]
              omega
            · have := hP c h
              simp only [List.length_append, List.length_singleton] at this
              omega
      obtain ⟨L1, hL1, hP1⟩ := hrec
      obtain ⟨L2, hL2, hP2⟩ := ih k combos
        (out.extend sep input
          ((combs k (List.range' (begin + 1) m)).map (fun t => (combos ++ [begin]) ++ t)))
        depth (calls ++ L1) hk hv
      refine ⟨L1 ++ L2, ?_, ?_⟩
      · rw [if_pos hc, dif_pos hlt, hw, hL1]
        simp only []
        rw [hL2, Out.extend_extend]
        simp [List.range'_succ, combs, List.map_append, List.map_map, Function.comp_def,
          List.append_assoc]
      · intro c hc1
        rcases List.mem_append.mp hc1 with h | h
        · exact hP1 c h
        · exact hP2 c h
    · have hl : (List.range' begin (m + 1)).length < k + 1 := by
        simp only [List.length_range']
        omega
      refine ⟨[], ?_, by simp⟩
      rw [if_neg hc]
      simp [combs_of_length_lt _ _ hl, Out.extend_nil]

/-! ### Selection by position, canonical range text -/

theorem wrap64_range (x : Int) : -(2 ^ 63) ≤ wrap64 x ∧ wrap64 x < 2 ^ 63 := by
  unfold wrap64
  omega

theorem stoll_range {s : Str} {x : Int} {pos : Nat} (h : stoll s = .ok (x, pos)) :
    -(2 ^ 63) ≤ x ∧ x < 2 ^ 63 := by
  unfold stoll at h
  split at h
  rename_i neg ds p _
  simp only [] at h
  by_cases h1 : ds = []
  · rw [if_pos h1] at h
    cases h
  · rw [if_neg h1] at h
    by_cases h2 : (if neg = true then -(digits_value ds : Int) else (digits_value ds : Int))
        < -(2 ^ 63) ∨
        2 ^ 63 ≤ (if neg = true then -(digits_value ds : Int) else (digits_value ds : Int))
    · rw [if_pos h2] at h
      cases h
    · rw [if_neg h2] at h
      simp only [Except.ok.injEq, Prod.mk.injEq] at h
      rw [← h.1]
      obtain ⟨a, b⟩ := not_or.mp h2
      exact ⟨by omega, by omega⟩

/-- Every string the generator returns is the `std::to_string` form of a `big_int`. -/
theorem generate_list_to_string :
    ∀ (n : Nat) (g : range_generator), -(2 ^ 63) ≤ g.start_ ∧ g.start_ < 2 ^ 63 →
      ∀ t ∈ generate_list n g, ∃ x : Int, -(2 ^ 63) ≤ x ∧ x < 2 ^ 63 ∧ t = to_string x
  | 0, _, _ => by
    intro t ht
    simp [generate_list] at ht
  | n + 1, g, hg => by
    intro t ht
    rw [generate_list] at ht
    rcases List.mem_cons.mp ht with h | h
    · exact ⟨g.start_, hg.1, hg.2, h⟩
    · exact generate_list_to_string n g.call.2 (wrap64_range _) t h

theorem take_length_resize (cap : Nat) (v r : List Str) (ns : Nat)
    (hr : resize cap v ns = .ok r) (h : v.length ≤ r.length) : r.take v.length = v := by
  unfold resize at hr
  by_cases h2 : ns ≤ v.length
  · rw [if_pos h2] at hr
    cases hr
    rw [List.length_take] at h
    have e : ns = v.length := by omega
    rw [e, List.take_length, List.take_length]
  · rw [if_neg h2] at hr
    by_cases h3 : ns ≤ cap
    · rw [if_pos h3] at hr
      cases hr
      exact List.take_left _ _
    · rw [if_neg h3] at hr
      cases hr

/-- A successful `std::generate` behind a `resize` keeps the entries already there and
appends strings that are the `std::to_string` form of a `big_int`. -/
theorem generate_resize_tokens (cap : Nat) (v w r : List Str) (ns : Nat) (g : range_generator)
    (hg : -(2 ^ 63) ≤ g.start_ ∧ g.start_ < 2 ^ 63)
    (hr : resize cap v ns = .ok r) (h : generate r v.length g = .ok w) :
    ∃ toks, w = v ++ toks ∧
      ∀ t ∈ toks, ∃ x : Int, -(2 ^ 63) ≤ x ∧ x < 2 ^ 63 ∧ t = to_string x := by
  unfold generate at h
  by_cases h1 : v.length ≤ r.length
  · rw [if_pos h1, take_length_resize cap v r ns hr h1] at h
    simp only [Except.ok.injEq] at h
    exact ⟨generate_list (r.length - v.length) g, h.symm, generate_list_to_string _ g hg⟩
  · rw [if_neg h1] at h
    cases h

/-- A successful `input_range` keeps the entries already there and appends strings that are
the `std::to_string` form of a `big_int`. -/
theorem input_range_tokens (cap : Nat) (first last : Int) (v w : List Str)
    (hf : -(2 ^ 63) ≤ first ∧ first < 2 ^ 63)
    (h : input_range cap first last v = .ok (.ok w)) :
    ∃ toks, w = v ++ toks ∧
      ∀ t ∈ toks, ∃ x : Int, -(2 ^ 63) ≤ x ∧ x < 2 ^ 63 ∧ t = to_string x := by
  unfold input_range at h
  simp only [] at h
  cases hr : resize cap v
      (((v.length : Int)
          + wrap64 (wrap64 (if first < last then last - first else first - last) + 1))
        % 2 ^ 64).toNat with
  | error e =>
    rw [hr] at h
    cases h
  | ok r =>
    rw [hr] at h
    simp only [] at h
    cases hg : generate r v.length (range_generator.mk_range first last) with
    | error f =>
      rw [hg] at h
      cases h
    | ok w2 =>
      rw [hg] at h
      cases h
      exact generate_resize_tokens cap v w r _ (range_generator.mk_range first last) hf hr hg

/-- A successful `read_range` keeps the entries already there and appends strings that are
the `std::to_string` form of a `big_int`. -/
theorem read_range_tokens (cap : Nat) (left right : Str) (v w : List Str)
    (h : read_range cap left right v = .ok (true, w)) :
    ∃ toks, w = v ++ toks ∧
      ∀ t ∈ toks, ∃ x : Int, -(2 ^ 63) ≤ x ∧ x < 2 ^ 63 ∧ t = to_string x := by
  unfold read_range at h
  split_ifs at h with h1 h2 h3
  · simp at h
  · simp at h
  · simp at h
  · split at h
    · simp at h
    · rename_i first pos hsl
      split_ifs at h with h4
      · simp at h
      · split at h
        · simp at h
        · rename_i last pos2 hsr
          split_ifs at h with h5
          · simp at h
          · split at h
            · cases h
            · cases h
            · rename_i w2 hin
              simp only [Except.ok.injEq, Prod.mk.injEq, true_and] at h
              rw [← h]
              exact input_range_tokens cap first last v w2 (stoll_range hsl) hin

/-! ## Main theorems -/

/-- C1: for an input sequence of length `n` and a count `1 ≤ k ≤ n`, the index tuples that
`print_all` emits are pairwise distinct (as tuples and as sets) and are exactly the
strictly increasing `k`-tuples below `n`, that is, exactly the `k`-element subsets of
`{0..n-1}`. -/
theorem C1_emits_each_k_subset_once (sep : Str) (input : List Str) (k : Nat) (h1 : 1 ≤ k)
    (hk : k ≤ input.length) (hn : input.length < 2 ^ 63) :
    ∃ out, print_all sep input k = .ok out ∧
      out.emitted.Nodup ∧
      (∀ t, t ∈ out.emitted ↔ t.length = k ∧ t.Sorted (· < ·) ∧ ∀ i ∈ t, i < input.length) ∧
      (out.emitted.map List.toFinset).Nodup ∧
      (∀ s : Finset Nat, s ∈ out.emitted.map List.toFinset ↔
        s ∈ Finset.powersetCard k (Finset.range input.length)) := by
  refine ⟨_, print_all_ok sep input k h1 (by omega), ?_, ?_, ?_, ?_⟩
  · exact nodup_combs k _ (List.nodup_range _)
  · exact mem_combs_range k _
  · exact nodup_map_toFinset_combs_range k _
  · exact mem_map_toFinset_combs_range k _

theorem C1_emits_each_k_subset_once_witness :
    ∃ out, print_all [','] [['a'], ['b'], ['c']] 2 = .ok out ∧
      out.emitted.Nodup ∧
      (∀ t, t ∈ out.emitted ↔ t.length = 2 ∧ t.Sorted (· < ·) ∧ ∀ i ∈ t, i < 3) ∧
      (out.emitted.map List.toFinset).Nodup ∧
      (∀ s : Finset Nat, s ∈ out.emitted.map List.toFinset ↔
        s ∈ Finset.powersetCard 2 (Finset.range 3)) :=
  C1_emits_each_k_subset_once [','] [['a'], ['b'], ['c']] 2 (by decide) (by decide) (by decide)

/-- C2: for a count `1 ≤ k` (a `big_int`, so below `2^63`), every combination that
`print_combination` emits from an empty stack has exactly `k` indices, strictly increasing
and inside the input, so the tokens it selects form a length-`k` subsequence of the input in
the original order. -/
theorem C2_emitted_is_increasing_subsequence (sep : Str) (input : List Str) (k : Int)
    (h1 : 1 ≤ k) (hk : k < 2 ^ 63) :
    ∃ out, print_combination sep input [] 0 k { stdout := [], emitted := [] } = .ok out ∧
      ∀ t ∈ out.emitted,
        (t.length : Int) = k ∧ t.Sorted (· < ·) ∧ (∀ i ∈ t, i < input.length) ∧
        (t.map (fun i => input.getD i [])).length = t.length ∧
        (t.map (fun i => input.getD i [])).Sublist input := by
  obtain ⟨j, rfl⟩ := Int.eq_ofNat_of_zero_le (by omega : 0 ≤ k)
  refine ⟨_, print_combination_ok sep input 0 j [] _ (Nat.zero_le _) (by omega) (by simp)
    (by omega), ?_⟩
  intro t ht
  simp only [Out.extend, List.nil_append, List.map_id', Nat.sub_zero, ← List.range_eq_range']
    at ht
  obtain ⟨hl, hs, hb⟩ := (mem_combs_range j _ t).mp ht
  refine ⟨by simp [hl], hs, hb, by simp, ?_⟩
  have hsub : t.Sublist (List.range input.length) := (sublist_range_iff t _).mpr ⟨hs, hb⟩
  have := hsub.map (fun i => input.getD i [])
  rwa [map_getD_range] at this

theorem C2_emitted_is_increasing_subsequence_witness :
    ∃ out, print_combination [','] [['a'], ['b'], ['c']] [] 0 2 { stdout := [], emitted := [] }
        = .ok out ∧
      ∀ t ∈ out.emitted,
        (t.length : Int) = 2 ∧ t.Sorted (· < ·) ∧ (∀ i ∈ t, i < 3) ∧
        (t.map (fun i => [['a'], ['b'], ['c']].getD i [])).length = t.length ∧
        (t.map (fun i => [['a'], ['b'], ['c']].getD i [])).Sublist [['a'], ['b'], ['c']] :=
  C2_emitted_is_increasing_subsequence [','] [['a'], ['b'], ['c']] 2 (by decide) (by decide)

/-- C3: for a count `1 ≤ k` (a `big_int`, so below `2^63`), the index tuples are emitted in
strictly increasing lexicographic order: every tuple is lexicographically below every tuple
emitted after it. For the items `a b c` and `k = 2` the lines are `a,b`, `a,c`, `b,c`, in
that order. -/
theorem C3_emitted_in_lexicographic_order (sep : Str) (input : List Str) (k : Int)
    (h1 : 1 ≤ k) (hk : k < 2 ^ 63) :
    (∃ out, print_combination sep input [] 0 k { stdout := [], emitted := [] } = .ok out ∧
      out.emitted.Pairwise (List.Lex (· < ·))) ∧
    print_all [','] [['a'], ['b'], ['c']] 2
      = .ok { stdout := "a,b\na,c\nb,c\n".toList, emitted := [[0, 1], [0, 2], [1, 2]] } := by
  constructor
  · obtain ⟨j, rfl⟩ := Int.eq_ofNat_of_zero_le (by omega : 0 ≤ k)
    refine ⟨_, print_combination_ok sep input 0 j [] _ (Nat.zero_le _) (by omega) (by simp)
      (by omega), ?_⟩
    simp only [Out.extend, List.nil_append, List.map_id', Nat.sub_zero, ← List.range_eq_range']
    exact lex_combs j _ (List.pairwise_lt_range _)
  · rw [print_all_ok _ _ _ (by decide) (by decide)]
    decide

theorem C3_emitted_in_lexicographic_order_witness :
    (∃ out, print_combination ['\t'] [['x'], ['y'], ['z'], ['w']] [] 0 3
        { stdout := [], emitted := [] } = .ok out ∧
      out.emitted.Pairwise (List.Lex (· < ·))) ∧
    print_all [','] [['a'], ['b'], ['c']] 2
      = .ok { stdout := "a,b\na,c\nb,c\n".toList, emitted := [[0, 1], [0, 2], [1, 2]] } :=
  C3_emitted_in_lexicographic_order ['\t'] [['x'], ['y'], ['z'], ['w']] 3 (by decide)
    (by decide)

/-- C4 as stated fails for `k = 0`: `choose a 0` has one item, `C(1, 0) = 1`, and the
program emits no combination. -/
theorem C4_counterexample :
    ∃ r, (∀ cap, main cap [['a'], ['0']] [] = .ok r) ∧ r.exit_code = 0 ∧ r.CHOOSE_K = 0 ∧
      r.stdout = [] ∧ r.emitted.length ≠ Nat.choose 1 0 := by
  refine ⟨⟨0, [], [], [], [], [','], 0⟩, ?_, rfl, rfl, rfl, by decide⟩
  intro cap
  exact main_of_zero_count cap [['a'], ['0']] [] [] (by decide) (by decide) (by decide)

/-- C4 (amended): for an input sequence of length `n` and a count `1 ≤ k ≤ n`, the
enumeration (`print_all`, which is what `main` runs once it has read a count `k ≥ 1`)
produces exactly `C(n, k)` combinations; when the count read is `0`, `main` returns before
enumerating and produces none. -/
theorem C4_count_is_choose (sep : Str) (input : List Str) (k : Nat) (h1 : 1 ≤ k)
    (hk : k ≤ input.length) (hn : input.length < 2 ^ 63) :
    (∃ out, print_all sep input k = .ok out ∧
      out.emitted.length = Nat.choose input.length k) ∧
    (∀ cap args stdin r, main cap args stdin = .ok r → r.exit_code = 0 → 1 ≤ r.CHOOSE_K →
      print_all r.OUTPUT_SEPARATOR r.INPUT_VECTOR r.CHOOSE_K
        = .ok { stdout := r.stdout, emitted := r.emitted }) ∧
    (∀ cap args stdin r, main cap args stdin = .ok r → r.CHOOSE_K = 0 → r.emitted = []) := by
  refine ⟨⟨_, print_all_ok sep input k h1 (by omega), ?_⟩, ?_, ?_⟩
  · simp [length_combs]
  · intro cap args stdin r h h0 hk1
    exact (main_inv h).1 h0 (by omega)
  · intro cap args stdin r h h0
    exact ((main_inv h).2.1 (Or.inr h0)).2

theorem C4_count_is_choose_witness :
    (∃ out, print_all [','] [['a'], ['b'], ['c'], ['d']] 2 = .ok out ∧
      out.emitted.length = Nat.choose 4 2) ∧
    (∀ cap args stdin r, main cap args stdin = .ok r → r.exit_code = 0 → 1 ≤ r.CHOOSE_K →
      print_all r.OUTPUT_SEPARATOR r.INPUT_VECTOR r.CHOOSE_K
        = .ok { stdout := r.stdout, emitted := r.emitted }) ∧
    (∀ cap args stdin r, main cap args stdin = .ok r → r.CHOOSE_K = 0 → r.emitted = []) :=
  C4_count_is_choose [','] [['a'], ['b'], ['c'], ['d']] 2 (by decide) (by decide) (by decide)

/-- C5 fails on the code: `read_k` accepts `9223372036854775808` (`2^63`), `print_all` hands
it to the `big_int` parameter as `-2^63`, the loop condition `distance >= k` then holds at
the end of the one-element input, and the enumeration dereferences the past-the-end iterator
instead of terminating; the same happens for every count from `2^63` up. -/
theorem C5_count_above_signed_range_faults :
    read_k "9223372036854775808".toList 0 = (true, 2 ^ 63, []) ∧
    to_big_int (2 ^ 63) = -(2 ^ 63) ∧
    print_all [','] [['a']] (2 ^ 63) = .error .deref ∧
    (∀ cap, main cap [['a'], "9223372036854775808".toList] [] = .error .deref) ∧
    (∀ (sep : Str) (input : List Str) (k : Nat), 2 ^ 63 ≤ k → k < 2 ^ 64 →
      ∃ e, print_all sep input k = .error e) := by
  have hk : read_k "9223372036854775808".toList 0 = (true, 2 ^ 63, []) := by decide
  have hp : print_all [','] [['a']] (2 ^ 63) = .error .deref := by
    simp [print_all, to_big_int, wrap64, print_combination, print_combination_loop]
  refine ⟨hk, by decide, hp, ?_, fun sep input k h1 h2 => print_all_fault sep input k h1 h2⟩
  intro cap
  have he : read_elements cap [['a']] [] = .ok [['a']] :=
    read_elements_of_settled (Nat.zero_le cap) _ _ _ (by decide) (by decide)
  rw [main_of_count cap [['a'], "9223372036854775808".toList] [] (2 ^ 63) [] (by decide)
    (by decide) hk (by decide)]
  have hin : (if (main_argv [['a'], "9223372036854775808".toList]).length - 1 = 1 ∧
        (main_argv [['a'], "9223372036854775808".toList]).headD [] = ['-']
      then (.ok (cin_words []) : Except Fault (List Str))
      else read_elements cap ((main_argv [['a'], "9223372036854775808".toList]).take
        ((main_argv [['a'], "9223372036854775808".toList]).length - 1)) [])
      = .ok [['a']] := by
    rw [if_neg (by decide)]
    exact he
  rw [hin]
  have hs : main_sep [['a'], "9223372036854775808".toList] = [','] := by decide
  simp only [hs, hp]

/-- C6: the `k == 0` branch prints a non-empty selection stack as its tokens in selection
order, joined by the separator and followed by one newline (so `k` tokens, `k - 1`
separators, none leading or trailing); every run of `main` that returns 0 has written
exactly these lines, one per emitted combination of `k` tokens, with a tab as separator
when the first argument is `-t` and a comma otherwise; `choose -t 1-3 2` prints `1<TAB>2`,
`1<TAB>3`, `2<TAB>3`. -/
theorem C6_line_format :
    (∀ (sep : Str) (input : List Str) (combos : List Nat) (out : Out),
      combos ≠ [] → (∀ p ∈ combos, p < input.length) →
      print_line sep input combos out
        = .ok { stdout := out.stdout
                  ++ (List.intercalate sep (combos.map (fun p => input.getD p [])) ++ ['\n']),
                emitted := out.emitted ++ [combos] } ∧
      (List.intercalate sep (combos.map (fun p => input.getD p [])) ++ ['\n']).length
        = ((combos.map (fun p => input.getD p [])).map List.length).sum
            + (combos.length - 1) * sep.length + 1) ∧
    (∀ (cap : Nat) (args : List Str) (stdin : Str) (r : Result),
      main cap args stdin = .ok r → r.exit_code = 0 →
      r.stdout = (r.emitted.map (fun c =>
          List.intercalate r.OUTPUT_SEPARATOR (c.map (fun p => r.INPUT_VECTOR.getD p []))
            ++ ['\n'])).flatten ∧
      (∀ c ∈ r.emitted, c.length = r.CHOOSE_K) ∧
      r.OUTPUT_SEPARATOR = if args.headD [] = ['-', 't'] then ['\t'] else [',']) ∧
    (∀ cap, 3 ≤ cap →
      main cap ["-t".toList, "1-3".toList, "2".toList] []
        = .ok { exit_code := 0, stdout := "1\t2\n1\t3\n2\t3\n".toList, stderr := [],
                emitted := [[0, 1], [0, 2], [1, 2]], INPUT_VECTOR := [['1'], ['2'], ['3']],
                OUTPUT_SEPARATOR := ['\t'], CHOOSE_K := 2 }) := by
  refine ⟨?_, ?_, ?_⟩
  · intro sep input combos out hne hv
    refine ⟨?_, ?_⟩
    · rw [print_line_ok sep input combos out hne hv]
      simp [Out.extend, render]
    · rw [List.length_append, length_intercalate sep _ (by simpa using hne)]
      simp
  · intro cap args stdin r h h0
    obtain ⟨hrun, hnone, hlt, hsep, hargs⟩ := main_inv h
    refine ⟨?_, ?_, hsep (hargs (by omega))⟩
    · by_cases hk0 : r.CHOOSE_K = 0
      · simp [(hnone (Or.inr hk0)).1, (hnone (Or.inr hk0)).2]
      · have hp := hrun h0 hk0
        by_cases hbig : r.CHOOSE_K < 2 ^ 63
        · rw [print_all_ok _ _ _ (by omega) hbig] at hp
          simp only [Except.ok.injEq, Out.mk.injEq] at hp
          rw [← hp.1, ← hp.2]
          rfl
        · obtain ⟨e, he⟩ := print_all_fault r.OUTPUT_SEPARATOR r.INPUT_VECTOR r.CHOOSE_K
            (by omega) hlt
          rw [he] at hp
          cases hp
    · intro c hc
      by_cases hk0 : r.CHOOSE_K = 0
      · rw [(hnone (Or.inr hk0)).2] at hc
        cases hc
      · have hp := hrun h0 hk0
        by_cases hbig : r.CHOOSE_K < 2 ^ 63
        · rw [print_all_ok _ _ _ (by omega) hbig] at hp
          simp only [Except.ok.injEq, Out.mk.injEq] at hp
          rw [← hp.2] at hc
          exact ((mem_combs _ _ _).mp hc).2
        · obtain ⟨e, he⟩ := print_all_fault r.OUTPUT_SEPARATOR r.INPUT_VECTOR r.CHOOSE_K
            (by omega) hlt
          rw [he] at hp
          cases hp
  · intro cap hcap
    have he : read_elements cap ["1-3".toList] [] = .ok [['1'], ['2'], ['3']] :=
      read_elements_of_settled hcap _ _ _ (by decide) (by decide)
    have hp : print_all ['\t'] [['1'], ['2'], ['3']] 2
        = .ok { stdout := "1\t2\n1\t3\n2\t3\n".toList, emitted := [[0, 1], [0, 2], [1, 2]] } := by
      rw [print_all_ok _ _ _ (by decide) (by decide)]
      decide
    exact main_of_run cap ["-t".toList, "1-3".toList, "2".toList] [] 2 [] _ _ (by decide)
      (by decide) (by decide) (by decide) (by rw [if_neg (by decide)]; exact he) hp

theorem C6_line_format_witness :
    print_line [','] [['a'], ['b'], ['c']] [0, 2] { stdout := [], emitted := [] }
      = .ok { stdout := "a,c\n".toList, emitted := [[0, 2]] } :=
  (C6_line_format.1 [','] [['a'], ['b'], ['c']] [0, 2] { stdout := [], emitted := [] }
    (by decide) (by decide)).1

/-- C7 as stated fails: `1` and `2^63 - 1` are signed 64-bit integers whose span `2^63 - 1`
is representable, yet `input_range(1, 2^63 - 1)` appends nothing to the empty input sequence
unless the vector can be grown to `2^63 - 1` strings: the `resize` of line 115 throws and the
exception leaves `input_range`. -/
theorem C7_counterexample :
    |((2 : Int) ^ 63 - 1) - 1| + 1 < 2 ^ 63 ∧
    input_range (2 ^ 32) 1 (2 ^ 63 - 1) [] = .ok (.error .cannot_grow) ∧
    (∀ cap, cap < 2 ^ 63 - 1 →
      input_range cap 1 (2 ^ 63 - 1) [] = .ok (.error .cannot_grow)) := by
  have hc : range_count 1 (2 ^ 63 - 1) = 2 ^ 63 - 1 := by decide
  have key : ∀ cap, cap < 2 ^ 63 - 1 →
      input_range cap 1 (2 ^ 63 - 1) [] = .ok (.error .cannot_grow) := by
    intro cap hcap
    apply input_range_throws cap 1 (2 ^ 63 - 1) []
    · rw [hc]
      norm_num
    · rw [hc]
      norm_num
    · rw [hc]
      simpa using hcap
  exact ⟨by decide, key _ (by norm_num), key⟩

/-- C7 (amended): for signed 64-bit `first` and `last` whose span `|last - first| + 1` is
representable (and with the grown vector's size a `size_t`), when the vector can be grown by
the span `input_range` appends to the input sequence exactly the decimal strings of
`first, first + s, ..., last` in that order (`s = 1` if `first < last`, else `-1`),
`|last - first| + 1` of them, and keeps the entries already there; when it cannot, `resize`
throws and `input_range` appends nothing; `5-8` gives 5,6,7,8, `8-5` gives 8,7,6,5 and `3-3`
gives 3. -/
theorem C7_input_range_appends_walk (cap : Nat) (first last : Int) (v : List Str)
    (hf : -(2 ^ 63) ≤ first ∧ first < 2 ^ 63) (hl : -(2 ^ 63) ≤ last ∧ last < 2 ^ 63)
    (hspan : |last - first| + 1 < 2 ^ 63)
    (hsize : (v.length : Int) + (|last - first| + 1) < 2 ^ 64) :
    (v.length + range_count first last ≤ cap →
      input_range cap first last v
        = .ok (.ok (v ++ (List.range (range_count first last)).map
            (fun (i : Nat) => to_string (first + range_step first last * (i : Int)))))) ∧
    (cap < v.length + range_count first last →
      input_range cap first last v = .ok (.error .cannot_grow)) ∧
    (range_count first last : Int) = |last - first| + 1 ∧
    range_step first last = (if first < last then 1 else -1) ∧
    first + range_step first last * ((range_count first last - 1 : Nat) : Int) = last ∧
    (∀ c, 4 ≤ c →
      input_range c 5 8 [] = .ok (.ok ["5".toList, "6".toList, "7".toList, "8".toList])) ∧
    (∀ c, 4 ≤ c →
      input_range c 8 5 [] = .ok (.ok ["8".toList, "7".toList, "6".toList, "5".toList])) ∧
    (∀ c, 2 ≤ c → input_range c 3 3 [['a']] = .ok (.ok [['a'], "3".toList])) := by
  have hc := range_count_eq first last
  refine ⟨?_, ?_, hc, rfl, range_last first last, ?_, ?_, ?_⟩
  · intro hcap
    exact input_range_ok cap first last v hf hl (by omega) (by omega) hcap
  · intro hcap
    exact input_range_throws cap first last v (by omega) (by omega) hcap
  · intro c h4
    exact input_range_mono h4 5 8 [] _ (by decide) (by decide)
  · intro c h4
    exact input_range_mono h4 8 5 [] _ (by decide) (by decide)
  · intro c h2
    exact input_range_mono h2 3 3 [['a']] _ (by decide) (by decide)

theorem C7_input_range_appends_walk_witness :
    input_range 100 (-3) 2 [['a']]
      = .ok (.ok ([['a']] ++ (List.range (range_count (-3) 2)).map
          (fun (i : Nat) => to_string (-3 + range_step (-3) 2 * (i : Int))))) ∧
    input_range 100 (-3) 2 [['a']]
      = .ok (.ok [['a'], "-3".toList, "-2".toList, "-1".toList, "0".toList, "1".toList,
          "2".toList]) :=
  ⟨(C7_input_range_appends_walk 100 (-3) 2 [['a']] (by decide) (by decide) (by decide)
      (by decide)).1 (by decide),
    by decide⟩

/-- C8 as stated fails: `1` and `9223372036854775807` are signed 64-bit integers with the
representable span `2^63 - 1`, yet `read_elements` keeps the token `1-9223372036854775807`
as one string unless the vector can be grown to `2^63 - 1` strings: `resize` throws inside
the `try` of `read_range`, the `catch (...)` of line 159 returns false and the token is
appended verbatim. -/
theorem C8_counterexample :
    to_string 1 ++ '-' :: to_string (2 ^ 63 - 1) = "1-9223372036854775807".toList ∧
    |((2 : Int) ^ 63 - 1) - 1| + 1 < 2 ^ 63 ∧
    read_elements (2 ^ 32) ["1-9223372036854775807".toList] []
      = .ok ["1-9223372036854775807".toList] ∧
    (∀ cap, cap < 2 ^ 63 - 1 →
      read_elements cap ["1-9223372036854775807".toList] []
        = .ok ["1-9223372036854775807".toList]) := by
  have ht : to_string 1 ++ '-' :: to_string (2 ^ 63 - 1) = "1-9223372036854775807".toList := by
    decide
  have hc : range_count 1 (2 ^ 63 - 1) = 2 ^ 63 - 1 := by decide
  have key : ∀ cap, cap < 2 ^ 63 - 1 →
      read_elements cap ["1-9223372036854775807".toList] []
        = .ok ["1-9223372036854775807".toList] := by
    intro cap hcap
    have hthrow : input_range cap 1 (2 ^ 63 - 1) [] = .ok (.error .cannot_grow) := by
      apply input_range_throws cap 1 (2 ^ 63 - 1) []
      · rw [hc]
        norm_num
      · rw [hc]
        norm_num
      · rw [hc]
        simpa using hcap
    rw [← ht, read_elements_singleton,
      read_element_range_token cap 1 (2 ^ 63 - 1) [] (by decide) (by decide), hthrow]
    rfl
  exact ⟨ht, by decide, key _ (by norm_num), key⟩

/-- C8 (amended): for signed 64-bit `a` and `b` with a representable span, `read_elements`
splits the token `decimal(a)-decimal(b)` at the dash between the two numbers (left piece
`decimal(a)`, right piece `decimal(b)`) and, when the vector can be grown by the span,
appends the inclusive range from `a` to `b`; when it cannot, `resize` throws, `read_range`
returns false and the token is appended as one string; the four sign shapes `a-b`, `-a-b`,
`a--b`, `-a--b` are all instances, and `-3-2` expands to -3,-2,-1,0,1,2. -/
theorem C8_range_token_expands (cap : Nat) (a b : Int) (v : List Str)
    (ha : -(2 ^ 63) ≤ a ∧ a < 2 ^ 63) (hb : -(2 ^ 63) ≤ b ∧ b < 2 ^ 63)
    (hspan : |b - a| + 1 < 2 ^ 63) (hsize : (v.length : Int) + (|b - a| + 1) < 2 ^ 64) :
    dash_pos (to_string a ++ '-' :: to_string b) = some (to_string a).length ∧
    (to_string a ++ '-' :: to_string b).take (to_string a).length = to_string a ∧
    (to_string a ++ '-' :: to_string b).drop ((to_string a).length + 1) = to_string b ∧
    (v.length + range_count a b ≤ cap →
      read_elements cap [to_string a ++ '-' :: to_string b] v
        = .ok (v ++ (List.range (range_count a b)).map
            (fun (i : Nat) => to_string (a + range_step a b * (i : Int))))) ∧
    (cap < v.length + range_count a b →
      read_elements cap [to_string a ++ '-' :: to_string b] v
        = .ok (v ++ [to_string a ++ '-' :: to_string b])) ∧
    (range_count a b : Int) = |b - a| + 1 ∧
    a + range_step a b * ((range_count a b - 1 : Nat) : Int) = b ∧
    (∀ c, 6 ≤ c →
      read_elements c ["-3-2".toList] []
        = .ok ["-3".toList, "-2".toList, "-1".toList, "0".toList, "1".toList, "2".toList]) ∧
    (∀ c, 10 ≤ c →
      read_elements c ["1-3".toList, "2--1".toList, "-1--3".toList] []
        = .ok ["1".toList, "2".toList, "3".toList, "2".toList, "1".toList, "0".toList,
            "-1".toList, "-1".toList, "-2".toList, "-3".toList]) := by
  have hc := range_count_eq a b
  refine ⟨dash_pos_range_token a b, List.take_left _ _, ?_, ?_, ?_, hc, range_last a b,
    ?_, ?_⟩
  · rw [show (to_string a).length + 1 = (to_string a ++ ['-']).length by simp,
      show to_string a ++ '-' :: to_string b = (to_string a ++ ['-']) ++ to_string b by simp,
      List.drop_left]
  · intro hcap
    rw [read_elements_singleton, read_element_range_token cap a b v ha hb,
      input_range_ok cap a b v ha hb (by omega) (by omega) hcap]
    rfl
  · intro hcap
    rw [read_elements_singleton, read_element_range_token cap a b v ha hb,
      input_range_throws cap a b v (by omega) (by omega) hcap]
  · intro c h6
    exact read_elements_of_settled h6 _ _ _ (by decide) (by decide)
  · intro c h10
    exact read_elements_of_settled h10 _ _ _ (by decide) (by decide)

theorem C8_range_token_expands_witness :
    read_elements 100 [to_string (-5) ++ '-' :: to_string (-3)] [['x']]
      = .ok ([['x']] ++ (List.range (range_count (-5) (-3))).map
          (fun (i : Nat) => to_string (-5 + range_step (-5) (-3) * (i : Int)))) ∧
    read_elements 100 ["-5--3".toList] [['x']]
      = .ok [['x'], "-5".toList, "-4".toList, "-3".toList] ∧
    read_elements 3 ["-5--3".toList] [['x']] = .ok [['x'], "-5--3".toList] :=
  ⟨(C8_range_token_expands 100 (-5) (-3) [['x']] (by decide) (by decide) (by decide)
      (by decide)).2.2.2.1 (by decide),
    by decide, by decide⟩

/-- C9: `read_elements` appends the token itself, once, and raises no error, keeping the
entries already there, whenever the token has no dash, or its split position is 0, or a
side of the split is empty, or a side is not consumed in full by `std::stoll`; so do `-5`,
`-`, `5-`, `foo-bar`, `5x-8` and `abc`. -/
theorem C9_literal_fallback (cap : Nat) (tok : Str) (v : List Str)
    (h : '-' ∉ tok ∨ dash_pos tok = some 0 ∨
      ∃ p, dash_pos tok = some p ∧
        (tok.take p = [] ∨ tok.drop (p + 1) = [] ∨
          parses_in_full (tok.take p) = false ∨ parses_in_full (tok.drop (p + 1)) = false)) :
    read_elements cap [tok] v = .ok (v ++ [tok]) ∧
    (∀ rest, read_elements cap (tok :: rest) v = read_elements cap rest (v ++ [tok])) ∧
    read_elements cap ["-5".toList, "-".toList, "5-".toList, "foo-bar".toList, "5x-8".toList,
        "abc".toList] [['x']]
      = .ok [['x'], "-5".toList, "-".toList, "5-".toList, "foo-bar".toList, "5x-8".toList,
          "abc".toList] := by
  have hlit : read_element cap tok v = .ok (v ++ [tok]) := by
    apply read_element_literal
    rcases h with h | h | ⟨p, hp, h⟩
    · exact Or.inl (dash_pos_of_not_mem h)
    · exact Or.inr (Or.inl h)
    · exact Or.inr (Or.inr ⟨p, hp, read_range_false cap _ _ v h⟩)
  refine ⟨?_, fun rest => read_elements_cons_literal cap tok rest v hlit,
    read_elements_of_settled (Nat.zero_le cap) _ _ _ (by decide) (by decide)⟩
  rw [read_elements_singleton, hlit]

theorem C9_literal_fallback_witness :
    read_elements 100 ["foo-bar".toList] [['x']] = .ok ([['x']] ++ ["foo-bar".toList]) ∧
    (∀ rest, read_elements 100 ("foo-bar".toList :: rest) [['x']]
      = read_elements 100 rest ([['x']] ++ ["foo-bar".toList])) ∧
    read_elements 100 ["-5".toList, "-".toList, "5-".toList, "foo-bar".toList, "5x-8".toList,
        "abc".toList] [['x']]
      = .ok [['x'], "-5".toList, "-".toList, "5-".toList, "foo-bar".toList, "5x-8".toList,
          "abc".toList] :=
  C9_literal_fallback 100 "foo-bar".toList [['x']]
    (Or.inr (Or.inr ⟨3, by decide, Or.inr (Or.inr (Or.inl (by decide)))⟩))

/-- C10: when one of `left`, `right` has the form `-?[0-9]+` with a value outside the signed
64-bit range, `read_range` returns false and leaves the input sequence unchanged, so
`read_elements` appends a token that splits into these pieces as one literal and goes on;
`1-99999999999999999999` becomes one literal token. -/
theorem C10_overflow_falls_back (cap : Nat) (left right : Str) (v : List Str)
    (h : (is_decimal left = true ∧
          (decimal_value left < -(2 ^ 63) ∨ 2 ^ 63 ≤ decimal_value left)) ∨
        (is_decimal right = true ∧
          (decimal_value right < -(2 ^ 63) ∨ 2 ^ 63 ≤ decimal_value right))) :
    read_range cap left right v = .ok (false, v) ∧
    (∀ (tok : Str) (p : Nat) (rest : List Str), dash_pos tok = some p → tok.take p = left →
      tok.drop (p + 1) = right →
      read_elements cap (tok :: rest) v = read_elements cap rest (v ++ [tok])) ∧
    read_elements cap ["1-99999999999999999999".toList] [['x']]
      = .ok [['x'], "1-99999999999999999999".toList] ∧
    (4 ≤ cap →
      read_elements cap ["1-99999999999999999999".toList, "2-3".toList] [['x']]
        = .ok [['x'], "1-99999999999999999999".toList, "2".toList, "3".toList]) := by
  have hr : read_range cap left right v = .ok (false, v) := by
    apply read_range_false
    rcases h with ⟨hd, hv⟩ | ⟨hd, hv⟩
    · exact Or.inr (Or.inr (Or.inl (parses_in_full_out_of_range left hd hv)))
    · exact Or.inr (Or.inr (Or.inr (parses_in_full_out_of_range right hd hv)))
  refine ⟨hr, ?_, read_elements_of_settled (Nat.zero_le cap) _ _ _ (by decide) (by decide),
    fun h4 => read_elements_of_settled h4 _ _ _ (by decide) (by decide)⟩
  intro tok p rest hp hl hrt
  apply read_elements_cons_literal
  apply read_element_literal
  exact Or.inr (Or.inr ⟨p, hp, by rw [hl, hrt]; exact hr⟩)

theorem C10_overflow_falls_back_witness :
    read_range 100 "1".toList "99999999999999999999".toList [['x']] = .ok (false, [['x']]) ∧
    (∀ (tok : Str) (p : Nat) (rest : List Str), dash_pos tok = some p →
      tok.take p = "1".toList → tok.drop (p + 1) = "99999999999999999999".toList →
      read_elements 100 (tok :: rest) [['x']] = read_elements 100 rest ([['x']] ++ [tok])) ∧
    read_elements 100 ["1-99999999999999999999".toList] [['x']]
      = .ok [['x'], "1-99999999999999999999".toList] ∧
    (4 ≤ 100 →
      read_elements 100 ["1-99999999999999999999".toList, "2-3".toList] [['x']]
        = .ok [['x'], "1-99999999999999999999".toList, "2".toList, "3".toList]) :=
  C10_overflow_falls_back 100 "1".toList "99999999999999999999".toList [['x']]
    (Or.inr ⟨by decide, Or.inr (by decide)⟩)

/-- C11 as stated fails: `read_k` also accepts `+5` and ` 5`, neither of which is a string
of digits only. -/
theorem C11_counterexample :
    read_k "+5".toList 0 = (true, 5, []) ∧ is_digits "+5".toList = false ∧
    read_k " 5".toList 0 = (true, 5, []) ∧ is_digits " 5".toList = false := by
  decide

/-- C11 (amended): `read_k` accepts its argument only if, behind optional leading white space
and an optional sign, it is a non-empty string of decimal digits only whose value fits the
unsigned 64-bit type, and rejects every other string; an argument of that shape with no sign
or with the sign `+` is accepted, and `CHOOSE_K` is then the value of its digits. In
particular every non-empty digits-only string that fits is accepted with its value. -/
theorem C11_read_k_acceptance (arg : Str) (k0 : Nat) :
    ((read_k arg k0).1 = true →
      is_digits (sign_and_rest arg).2 = true ∧ digits_value (sign_and_rest arg).2 < 2 ^ 64) ∧
    ((sign_and_rest arg).1 = false →
      ((read_k arg k0).1 = true ↔
        is_digits (sign_and_rest arg).2 = true ∧ digits_value (sign_and_rest arg).2 < 2 ^ 64) ∧
      (is_digits (sign_and_rest arg).2 = true → digits_value (sign_and_rest arg).2 < 2 ^ 64 →
        read_k arg k0 = (true, digits_value (sign_and_rest arg).2, []))) ∧
    (is_digits arg = true → digits_value arg < 2 ^ 64 →
      read_k arg k0 = (true, digits_value arg, [])) := by
  have key : ∀ (a : Str), is_digits (sign_and_rest a).2 = true →
      digits_value (sign_and_rest a).2 < 2 ^ 64 →
      read_k a k0 = (true,
        if (sign_and_rest a).1 then (2 ^ 64 - digits_value (sign_and_rest a).2) % 2 ^ 64
        else digits_value (sign_and_rest a).2, []) := by
    intro a hd hv
    obtain ⟨hne, hall⟩ := (is_digits_iff _).mp hd
    have htw : (sign_and_rest a).2.takeWhile Char.isDigit = (sign_and_rest a).2 :=
      List.takeWhile_eq_self_iff.mpr hall
    rw [read_k_eq, htw, if_neg hne, if_neg (by omega), if_neg (by omega)]
  have hiff : (read_k arg k0).1 = true ↔
      is_digits (sign_and_rest arg).2 = true ∧ digits_value (sign_and_rest arg).2 < 2 ^ 64 := by
    constructor
    · intro h
      rw [read_k_eq] at h
      by_cases h1 : (sign_and_rest arg).2.takeWhile Char.isDigit = []
      · rw [if_pos h1] at h
        exact absurd h (by simp)
      · rw [if_neg h1] at h
        by_cases h2 : 2 ^ 64 ≤ digits_value ((sign_and_rest arg).2.takeWhile Char.isDigit)
        · rw [if_pos h2] at h
          exact absurd h (by simp)
        · rw [if_neg h2] at h
          by_cases h3 : ((sign_and_rest arg).2.takeWhile Char.isDigit).length
              < (sign_and_rest arg).2.length
          · rw [if_pos h3] at h
            exact absurd h (by simp)
          · have hall := (takeWhile_isDigit_eq_self_iff _).mp h3
            have htw : (sign_and_rest arg).2.takeWhile Char.isDigit = (sign_and_rest arg).2 :=
              List.takeWhile_eq_self_iff.mpr hall
            rw [htw] at h1 h2
            exact ⟨(is_digits_iff _).mpr ⟨h1, hall⟩, by omega⟩
    · rintro ⟨hd, hv⟩
      rw [key arg hd hv]
  refine ⟨hiff.mp, ?_, ?_⟩
  · intro hs
    refine ⟨hiff, ?_⟩
    intro hd hv
    rw [key arg hd hv, hs]
    rfl
  · intro hd hv
    have hs := sign_and_rest_digits hd
    have := key arg (by rw [hs]; exact hd) (by rw [hs]; exact hv)
    rw [hs] at this
    simpa using this

theorem C11_read_k_acceptance_witness :
    read_k "42".toList 0 = (true, digits_value "42".toList, []) ∧
    read_k "+42".toList 0 = (true, digits_value (sign_and_rest "+42".toList).2, []) ∧
    (read_k "4x".toList 0).1 = false :=
  ⟨(C11_read_k_acceptance "42".toList 0).2.2 (by decide) (by decide),
    ((C11_read_k_acceptance "+42".toList 0).2.1 (by decide)).2 (by decide) (by decide),
    by
      cases h : (read_k "4x".toList 0).1 with
      | false => rfl
      | true => exact absurd ((C11_read_k_acceptance "4x".toList 0).1 h).1 (by decide)⟩

/-- C12 fails on the code in its last case: `choose a 18446744073709551615` passes the two
argument-count checks and `read_k` accepts the count, yet `main` does not exit with 0: the
count reaches `print_combination` as `-1` and the enumeration runs past the end of the input.
The other cases hold: exit code 1, 2 or 3 with nothing on standard output, and exit code 0
whenever a run that passed the three checks returns; `choose onlyone` exits 1 silently. -/
theorem C12_exit_codes :
    (read_k "18446744073709551615".toList 0 = (true, 2 ^ 64 - 1, []) ∧
      ∀ cap, ∃ e, main cap [['a'], "18446744073709551615".toList] [] = .error e) ∧
    (∀ (cap : Nat) (args : List Str) (stdin : Str), args.length < 2 →
      ∃ r, main cap args stdin = .ok r ∧ r.exit_code = 1 ∧ r.stdout = []) ∧
    (∀ (cap : Nat) (args : List Str) (stdin : Str), 2 ≤ args.length → (main_argv args).length < 2 →
      ∃ r, main cap args stdin = .ok r ∧ r.exit_code = 2 ∧ r.stdout = []) ∧
    (∀ (cap : Nat) (args : List Str) (stdin : Str), 2 ≤ args.length → 2 ≤ (main_argv args).length →
      (read_k ((main_argv args).getD ((main_argv args).length - 1) []) 0).1 = false →
      ∃ r, main cap args stdin = .ok r ∧ r.exit_code = 3 ∧ r.stdout = []) ∧
    (∀ (cap : Nat) (args : List Str) (stdin : Str) (r : Result), 2 ≤ args.length →
      2 ≤ (main_argv args).length →
      (read_k ((main_argv args).getD ((main_argv args).length - 1) []) 0).1 = true →
      main cap args stdin = .ok r → r.exit_code = 0) ∧
    (∀ cap, main cap ["onlyone".toList] [] = .ok ⟨1, [], usage, [], [], [','], 0⟩) := by
  refine ⟨⟨by decide, ?_⟩, ?_, ?_, ?_, ?_,
    fun cap => main_of_few_args cap ["onlyone".toList] [] (by decide)⟩
  · intro cap
    have hk : read_k ((main_argv [['a'], "18446744073709551615".toList]).getD
        ((main_argv [['a'], "18446744073709551615".toList]).length - 1) []) 0
        = (true, 2 ^ 64 - 1, []) := by decide
    have hm := main_of_count cap [['a'], "18446744073709551615".toList] [] (2 ^ 64 - 1) []
      (by decide) (by decide) hk (by decide)
    have hin : (if (main_argv [['a'], "18446744073709551615".toList]).length - 1 = 1 ∧
          (main_argv [['a'], "18446744073709551615".toList]).headD [] = ['-']
        then (.ok (cin_words []) : Except Fault (List Str))
        else read_elements cap ((main_argv [['a'], "18446744073709551615".toList]).take
          ((main_argv [['a'], "18446744073709551615".toList]).length - 1)) [])
        = .ok [['a']] := by
      rw [if_neg (by decide)]
      exact read_elements_of_settled (Nat.zero_le cap) _ _ _ (by decide) (by decide)
    rw [hin] at hm
    obtain ⟨e, he⟩ := print_all_fault (main_sep [['a'], "18446744073709551615".toList])
      [['a']] (2 ^ 64 - 1) (by decide) (by decide)
    simp only [he] at hm
    exact ⟨e, hm⟩
  · intro cap args stdin h
    exact ⟨_, main_of_few_args cap args stdin h, rfl, rfl⟩
  · intro cap args stdin h1 h2
    exact ⟨_, main_of_few_items cap args stdin h1 h2, rfl, rfl⟩
  · intro cap args stdin h1 h2 hk
    rcases hr : read_k ((main_argv args).getD ((main_argv args).length - 1) []) 0
      with ⟨b, k, err⟩
    rw [hr] at hk
    simp only at hk
    subst hk
    exact ⟨_, main_of_bad_count cap args stdin k err h1 h2 hr, rfl, rfl⟩
  · intro cap args stdin r h1 h2 hk h
    exact main_exit_code_of_ok cap args stdin r h h1 h2 hk

/-- C13: when the argument-count checks pass and `read_k` accepts the final argument with
the value 0, `main` exits with 0 and writes nothing to standard output, whatever the items
and standard input are: the input sequence is still empty when it returns (no item is
parsed, no word is read). -/
theorem C13_zero_count_prints_nothing (cap : Nat) (args : List Str) (stdin : Str) (err : Str)
    (h1 : 2 ≤ args.length) (h2 : 2 ≤ (main_argv args).length)
    (hk : read_k ((main_argv args).getD ((main_argv args).length - 1) []) 0 = (true, 0, err)) :
    main cap args stdin
      = .ok { exit_code := 0, stdout := [], stderr := [], emitted := [], INPUT_VECTOR := [],
              OUTPUT_SEPARATOR := main_sep args, CHOOSE_K := 0 } ∧
    ∀ stdin2, main cap args stdin2 = main cap args stdin := by
  refine ⟨main_of_zero_count cap args stdin err h1 h2 hk, fun stdin2 => ?_⟩
  rw [main_of_zero_count cap args stdin err h1 h2 hk, main_of_zero_count cap args stdin2 err h1 h2 hk]

theorem C13_zero_count_prints_nothing_witness :
    main 100 ["-t".toList, "1-5".toList, "-9223372036854775808-9223372036854775806".toList,
        "0".toList] "x y".toList
      = .ok { exit_code := 0, stdout := [], stderr := [], emitted := [], INPUT_VECTOR := [],
              OUTPUT_SEPARATOR :=
                main_sep ["-t".toList, "1-5".toList,
                  "-9223372036854775808-9223372036854775806".toList, "0".toList],
              CHOOSE_K := 0 } ∧
    ∀ stdin2,
      main 100 ["-t".toList, "1-5".toList, "-9223372036854775808-9223372036854775806".toList,
          "0".toList] stdin2
        = main 100 ["-t".toList, "1-5".toList,
          "-9223372036854775808-9223372036854775806".toList, "0".toList] "x y".toList :=
  C13_zero_count_prints_nothing 100
    ["-t".toList, "1-5".toList, "-9223372036854775808-9223372036854775806".toList, "0".toList]
    "x y".toList [] (by decide) (by decide) (by decide)

/-- C14: when, behind the optional separator flag, exactly one item is given and it is `-`,
the input sequence is the list of whitespace-separated words of standard input, in order and
verbatim (`1-3` stays one token), and for a count `k ≥ 1` the run is the enumeration over
those words; `choose - 2` with standard input `x y z` ends in the same state, with the same
lines printed, as `choose x y z 2`. -/
theorem C14_stdin_mode (cap : Nat) (args : List Str) (stdin : Str) (karg : Str) (k : Nat) (err : Str)
    (h1 : 2 ≤ args.length) (hitems : main_argv args = [['-'], karg])
    (hk : read_k karg 0 = (true, k, err)) (h0 : 1 ≤ k) :
    main cap args stdin
      = (match print_all (main_sep args) (spec_whitespace_words stdin) k with
        | .error e => .error e
        | .ok out =>
          .ok { exit_code := 0, stdout := out.stdout, stderr := [], emitted := out.emitted,
                INPUT_VECTOR := spec_whitespace_words stdin,
                OUTPUT_SEPARATOR := main_sep args, CHOOSE_K := k }) ∧
    spec_whitespace_words " x  1-3\t-2--1\ny ".toList
      = ["x".toList, "1-3".toList, "-2--1".toList, "y".toList] ∧
    main cap ["-".toList, "2".toList] "x y z".toList
      = .ok { exit_code := 0, stdout := "x,y\nx,z\ny,z\n".toList, stderr := [],
              emitted := [[0, 1], [0, 2], [1, 2]],
              INPUT_VECTOR := ["x".toList, "y".toList, "z".toList],
              OUTPUT_SEPARATOR := [','], CHOOSE_K := 2 } ∧
    main cap ["x".toList, "y".toList, "z".toList, "2".toList] []
      = .ok { exit_code := 0, stdout := "x,y\nx,z\ny,z\n".toList, stderr := [],
              emitted := [[0, 1], [0, 2], [1, 2]],
              INPUT_VECTOR := ["x".toList, "y".toList, "z".toList],
              OUTPUT_SEPARATOR := [','], CHOOSE_K := 2 } := by
  have hp : print_all [','] ["x".toList, "y".toList, "z".toList] 2
      = .ok { stdout := "x,y\nx,z\ny,z\n".toList, emitted := [[0, 1], [0, 2], [1, 2]] } := by
    rw [print_all_ok _ _ _ (by decide) (by decide)]
    decide
  refine ⟨?_, by decide, ?_, ?_⟩
  · have h2 : 2 ≤ (main_argv args).length := by
      rw [hitems]
      exact Nat.le_refl 2
    have hk2 : read_k ((main_argv args).getD ((main_argv args).length - 1) []) 0
        = (true, k, err) := by
      rw [hitems]
      exact hk
    rw [main_of_count cap args stdin k err h1 h2 hk2 (by omega), hitems, if_pos ⟨rfl, rfl⟩,
      cin_words_eq_spec]
  · exact main_of_run cap ["-".toList, "2".toList] "x y z".toList 2 []
      ["x".toList, "y".toList, "z".toList] _ (by decide) (by decide) (by decide) (by decide)
      (by rw [if_pos (by decide)]; decide) hp
  · exact main_of_run cap ["x".toList, "y".toList, "z".toList, "2".toList] [] 2 []
      ["x".toList, "y".toList, "z".toList] _ (by decide) (by decide) (by decide) (by decide)
      (by
        rw [if_neg (by decide)]
        exact read_elements_of_settled (Nat.zero_le cap) _ _ _ (by decide) (by decide))
      hp

theorem C14_stdin_mode_witness :
    main 100 ["-t".toList, "-".toList, "1".toList] "5-7 b".toList
      = (match print_all (main_sep ["-t".toList, "-".toList, "1".toList])
          (spec_whitespace_words "5-7 b".toList) 1 with
        | .error e => .error e
        | .ok out =>
          .ok { exit_code := 0, stdout := out.stdout, stderr := [], emitted := out.emitted,
                INPUT_VECTOR := spec_whitespace_words "5-7 b".toList,
                OUTPUT_SEPARATOR := main_sep ["-t".toList, "-".toList, "1".toList],
                CHOOSE_K := 1 }) :=
  (C14_stdin_mode 100 ["-t".toList, "-".toList, "1".toList] "5-7 b".toList "1".toList 1 []
    (by decide) (by decide) (by decide) (by decide)).1

/-- C15: when the left or the right piece of `read_elements`' split has a `-` at a position
other than 0, the token is not expanded: `read_elements` appends it verbatim as one literal
and goes on; `1-2-3` (split at 1, right piece `2-3`) and `--5-3` (split at 3, left piece
`--5`) each become one literal token. -/
theorem C15_inner_dash_is_literal (cap : Nat) (tok : Str) (p : Nat) (v : List Str)
    (hp : dash_pos tok = some p)
    (h : '-' ∈ (tok.take p).drop 1 ∨ '-' ∈ (tok.drop (p + 1)).drop 1) :
    read_elements cap [tok] v = .ok (v ++ [tok]) ∧
    (∀ rest, read_elements cap (tok :: rest) v = read_elements cap rest (v ++ [tok])) ∧
    dash_pos "1-2-3".toList = some 1 ∧ dash_pos "--5-3".toList = some 3 ∧
    read_elements cap ["1-2-3".toList, "--5-3".toList] [['x']]
      = .ok [['x'], "1-2-3".toList, "--5-3".toList] := by
  have hlit : read_element cap tok v = .ok (v ++ [tok]) :=
    read_element_literal cap tok v
      (Or.inr (Or.inr ⟨p, hp, read_range_false_of_inner_dash cap _ _ v h⟩))
  refine ⟨?_, fun rest => read_elements_cons_literal cap tok rest v hlit, by decide, by decide,
    read_elements_of_settled (Nat.zero_le cap) _ _ _ (by decide) (by decide)⟩
  rw [read_elements_singleton, hlit]

theorem C15_inner_dash_is_literal_witness :
    read_elements 100 ["--5-3".toList] [['x']] = .ok ([['x']] ++ ["--5-3".toList]) ∧
    (∀ rest, read_elements 100 ("--5-3".toList :: rest) [['x']]
      = read_elements 100 rest ([['x']] ++ ["--5-3".toList])) ∧
    dash_pos "1-2-3".toList = some 1 ∧ dash_pos "--5-3".toList = some 3 ∧
    read_elements 100 ["1-2-3".toList, "--5-3".toList] [['x']]
      = .ok [['x'], "1-2-3".toList, "--5-3".toList] :=
  C15_inner_dash_is_literal 100 "--5-3".toList 3 [['x']] (by decide) (Or.inl (by decide))

/-- C16 fails on the code: for the pieces `+1` and `3` of the token `+1-3`, and for ` 1` and
`3`, `read_range` returns true and expands 1,2,3 (when the vector can be grown to three
strings), although `+1` and ` 1` do not have the form `-?[0-9]+`: `std::stoll` skips leading
white space and accepts a `+`, and `read_range` checks only where the first `-` is. What it
does enforce is that `std::stoll` consumes each piece in full and that no `-` follows the
first character. -/
theorem C16_plus_and_space_accepted :
    (∀ cap, 3 ≤ cap →
      read_range cap "+1".toList "3".toList []
        = .ok (true, ["1".toList, "2".toList, "3".toList])) ∧
    is_decimal "+1".toList = false ∧
    (∀ cap, 3 ≤ cap →
      read_range cap " 1".toList "3".toList []
        = .ok (true, ["1".toList, "2".toList, "3".toList])) ∧
    is_decimal " 1".toList = false ∧
    (∀ cap, 3 ≤ cap →
      read_elements cap ["+1-3".toList] [] = .ok ["1".toList, "2".toList, "3".toList]) ∧
    (∀ (cap : Nat) (left right : Str) (v w : List Str),
      read_range cap left right v = .ok (true, w) →
      parses_in_full left = true ∧ parses_in_full right = true ∧
        '-' ∉ left.drop 1 ∧ '-' ∉ right.drop 1) := by
  refine ⟨?_, by decide, ?_, by decide, ?_, ?_⟩
  · intro cap h3
    exact read_range_mono h3 _ _ _ _ (by decide)
  · intro cap h3
    exact read_range_mono h3 _ _ _ _ (by decide)
  · intro cap h3
    exact read_elements_of_settled h3 _ _ _ (by decide) (by decide)
  · intro cap left right v w h
    exact read_range_true_inv cap left right v w h

/-- C17 fails on the code: for `first = -2^63` and `last = 2^63 - 1`, which the range parser
delivers for the token `-9223372036854775808-9223372036854775807`, `input_range` computes
`count` in `big_int`, where `last - first` wraps to `-1` and `count` is 0: `read_range`
returns true and the input sequence has not grown at all, while `|last - first| + 1` is
`2^64`. With `last = 2^63 - 2` the count is `-1`, the vector shrinks by one entry and
`std::generate` is handed a range that starts behind its end. Neither depends on how far the
vector can be grown. When the span is representable and `read_range` returns true, the growth
is exactly `|last - first| + 1`; it returns true when the vector can be grown by the span. -/
theorem C17_count_overflows :
    stoll "-9223372036854775808".toList = .ok (-(2 ^ 63), 20) ∧
    stoll "9223372036854775807".toList = .ok (2 ^ 63 - 1, 19) ∧
    (∀ cap,
      read_range cap "-9223372036854775808".toList "9223372036854775807".toList [['a']]
        = .ok (true, [['a']])) ∧
    (∀ cap,
      read_elements cap ["-9223372036854775808-9223372036854775807".toList] [['a']]
        = .ok [['a']]) ∧
    (∀ cap,
      read_range cap "-9223372036854775808".toList "9223372036854775806".toList [['a']]
        = .error .badRange) ∧
    (∀ (cap : Nat) (first last : Int) (v w : List Str),
      -(2 ^ 63) ≤ first ∧ first < 2 ^ 63 →
      -(2 ^ 63) ≤ last ∧ last < 2 ^ 63 → |last - first| + 1 < 2 ^ 63 →
      (v.length : Int) + (|last - first| + 1) < 2 ^ 64 →
      read_range cap (to_string first) (to_string last) v = .ok (true, w) →
      (w.length : Int) = v.length + (|last - first| + 1)) ∧
    (∀ (cap : Nat) (first last : Int) (v : List Str),
      -(2 ^ 63) ≤ first ∧ first < 2 ^ 63 →
      -(2 ^ 63) ≤ last ∧ last < 2 ^ 63 → |last - first| + 1 < 2 ^ 63 →
      (v.length : Int) + (|last - first| + 1) < 2 ^ 64 →
      (v.length : Int) + (|last - first| + 1) ≤ cap →
      ∃ w, read_range cap (to_string first) (to_string last) v = .ok (true, w)) := by
  refine ⟨by decide, by decide, ?_, ?_, ?_, ?_, ?_⟩
  · intro cap
    exact read_range_mono (Nat.zero_le cap) _ _ _ _ (by decide)
  · intro cap
    exact read_elements_of_settled (Nat.zero_le cap) _ _ _ (by decide) (by decide)
  · intro cap
    exact read_range_fault_mono (Nat.zero_le cap) _ _ _ _ (by decide)
  · intro cap first last v w hf hl hspan hsize h
    have hc := range_count_eq first last
    rw [read_range_to_string cap first last v hf hl] at h
    by_cases hcap : v.length + range_count first last ≤ cap
    · rw [input_range_ok cap first last v hf hl (by omega) (by omega) hcap] at h
      simp only [Except.ok.injEq, Prod.mk.injEq, true_and] at h
      rw [← h]
      simp only [List.length_append, range_tokens, List.length_map, List.length_range]
      push_cast
      omega
    · rw [input_range_throws cap first last v (by omega) (by omega) (by omega)] at h
      simp at h
  · intro cap first last v hf hl hspan hsize hcap
    have hc := range_count_eq first last
    refine ⟨v ++ range_tokens first last, ?_⟩
    rw [read_range_to_string cap first last v hf hl,
      input_range_ok cap first last v hf hl (by omega) (by omega) (by omega)]

/-- C18: for every input sequence and every count `1 ≤ k` (a `big_int`, so below `2^63`),
`print_combination` started with an empty stack terminates (the recorded run returns, with
the same output as `print_combination`), and every call made during the run has a nesting
depth equal to the size of the selection stack it is entered with, and at most `k`. -/
theorem C18_depth_at_most_k (sep : Str) (input : List Str) (k : Int) (h1 : 1 ≤ k)
    (hk : k < 2 ^ 63) :
    ∃ out calls,
      print_combination_traced sep input [] 0 k 0 { stdout := [], emitted := [] } []
        = .ok (out, calls) ∧
      print_combination sep input [] 0 k { stdout := [], emitted := [] } = .ok out ∧
      ∀ c ∈ calls, c.2 = c.1 ∧ (c.1 : Int) ≤ k := by
  obtain ⟨n, rfl⟩ := Int.eq_ofNat_of_zero_le (by omega : 0 ≤ k)
  obtain ⟨j, rfl⟩ : ∃ j, n = j + 1 := ⟨n - 1, by omega⟩
  obtain ⟨L, hL, hP⟩ := print_combination_loop_traced_ok sep input (input.length - 0) 0 rfl
    (Nat.zero_le _) j [] { stdout := [], emitted := [] } 0
    ([] ++ [(0, ([] : List Nat).length)]) (by omega) (by simp)
  refine ⟨Out.extend sep input { stdout := [], emitted := [] }
      ((combs (j + 1) (List.range' 0 (input.length - 0))).map (fun t => [] ++ t)),
    [] ++ [(0, ([] : List Nat).length)] ++ L, ?_, ?_, ?_⟩
  · rw [print_combination_traced, if_neg (by omega)]
    exact hL
  · exact print_combination_ok sep input 0 (j + 1) [] _ (Nat.zero_le _) (by omega) (by simp)
      (by omega)
  · intro c hc
    rcases List.mem_append.mp hc with h | h
    · simp only [List.nil_append, List.length_nil, List.mem_singleton] at h
      rw [h]
      exact ⟨rfl, by simp only [Nat.cast_zero]; omega⟩
    · have := hP c h
      simp only [List.length_nil, Nat.add_zero, Nat.zero_add] at this
      refine ⟨by omega, ?_⟩
      have h2 : c.1 ≤ j + 1 := this.1
      exact_mod_cast h2

theorem C18_depth_at_most_k_witness :
    ∃ out calls,
      print_combination_traced [','] [['a'], ['b'], ['c']] [] 0 2 0
          { stdout := [], emitted := [] } []
        = .ok (out, calls) ∧
      print_combination [','] [['a'], ['b'], ['c']] [] 0 2 { stdout := [], emitted := [] }
        = .ok out ∧
      ∀ c ∈ calls, c.2 = c.1 ∧ (c.1 : Int) ≤ 2 :=
  C18_depth_at_most_k [','] [['a'], ['b'], ['c']] 2 (by decide) (by decide)

/-- C19 as stated fails in its general clause: the items `a b a` hold equal tokens at the
positions 0 and 2, yet with `k = 2` the program prints the three lines `a,b`, `a,a` and
`b,a`, no two of which are equal. -/
theorem C19_counterexample :
    (["a".toList, "b".toList, "a".toList] : List Str).getD 0 []
      = (["a".toList, "b".toList, "a".toList] : List Str).getD 2 [] ∧
    print_all [','] ["a".toList, "b".toList, "a".toList] 2
      = .ok { stdout := "a,b\na,a\nb,a\n".toList, emitted := [[0, 1], [0, 2], [1, 2]] } ∧
    ([[0, 1], [0, 2], [1, 2]].map
      (render [','] ["a".toList, "b".toList, "a".toList])).Nodup ∧
    (∀ cap, main cap ["a".toList, "b".toList, "a".toList, "2".toList] []
      = .ok { exit_code := 0, stdout := "a,b\na,a\nb,a\n".toList, stderr := [],
              emitted := [[0, 1], [0, 2], [1, 2]],
              INPUT_VECTOR := ["a".toList, "b".toList, "a".toList],
              OUTPUT_SEPARATOR := [','], CHOOSE_K := 2 }) := by
  have hp : print_all [','] ["a".toList, "b".toList, "a".toList] 2
      = .ok { stdout := "a,b\na,a\nb,a\n".toList, emitted := [[0, 1], [0, 2], [1, 2]] } := by
    rw [print_all_ok _ _ _ (by decide) (by decide)]
    decide
  refine ⟨by decide, hp, by decide, ?_⟩
  intro cap
  exact main_of_run cap ["a".toList, "b".toList, "a".toList, "2".toList] [] 2 []
    ["a".toList, "b".toList, "a".toList] _ (by decide) (by decide) (by decide) (by decide)
    (by
      rw [if_neg (by decide)]
      exact read_elements_of_settled (Nat.zero_le cap) _ _ _ (by decide) (by decide))
    hp

/-- C19 (amended): combinations are selected by position: for the items `a a` and `k = 1`
the program prints the line `a` twice, for the index tuples `[0]` and `[1]`; in general the
emitted index tuples are pairwise distinct for every count, and whenever two positions
`i < j` of the input hold equal tokens, the run with `k = 1` emits both `[i]` and `[j]`, two
different tuples whose printed lines are equal. -/
theorem C19_selected_by_position (sep : Str) (input : List Str) (i j : Nat) (hij : i < j)
    (hj : j < input.length) (heq : input.getD i [] = input.getD j []) :
    (∃ out, print_all sep input 1 = .ok out ∧ [i] ∈ out.emitted ∧ [j] ∈ out.emitted ∧
      [i] ≠ [j] ∧ render sep input [i] = render sep input [j] ∧
      out.stdout = (out.emitted.map (render sep input)).flatten) ∧
    (∀ k, 1 ≤ k → k < 2 ^ 63 → ∃ out, print_all sep input k = .ok out ∧ out.emitted.Nodup) ∧
    (∀ cap, main cap ["a".toList, "a".toList, "1".toList] []
      = .ok { exit_code := 0, stdout := "a\na\n".toList, stderr := [],
              emitted := [[0], [1]], INPUT_VECTOR := ["a".toList, "a".toList],
              OUTPUT_SEPARATOR := [','], CHOOSE_K := 1 }) := by
  refine ⟨⟨_, print_all_ok sep input 1 (by omega) (by omega), ?_, ?_, ?_, ?_, rfl⟩, ?_, ?_⟩
  · exact (mem_combs_range 1 _ [i]).mpr ⟨rfl, by simp, by simpa using by omega⟩
  · exact (mem_combs_range 1 _ [j]).mpr ⟨rfl, by simp, by simpa using hj⟩
  · intro h
    have := List.cons.inj h
    omega
  · unfold render
    rw [List.map_singleton, List.map_singleton, heq]
  · intro k h1 hk
    exact ⟨_, print_all_ok sep input k h1 hk, nodup_combs k _ (List.nodup_range _)⟩
  · intro cap
    have hp : print_all [','] ["a".toList, "a".toList] 1
        = .ok { stdout := "a\na\n".toList, emitted := [[0], [1]] } := by
      rw [print_all_ok _ _ _ (by decide) (by decide)]
      decide
    exact main_of_run cap ["a".toList, "a".toList, "1".toList] [] 1 []
      ["a".toList, "a".toList] _ (by decide) (by decide) (by decide) (by decide)
      (by
        rw [if_neg (by decide)]
        exact read_elements_of_settled (Nat.zero_le cap) _ _ _ (by decide) (by decide))
      hp

theorem C19_selected_by_position_witness :
    (∃ out, print_all ['\t'] ["a".toList, "b".toList, "a".toList] 1 = .ok out ∧
      [0] ∈ out.emitted ∧ [2] ∈ out.emitted ∧ [0] ≠ [2] ∧
      render ['\t'] ["a".toList, "b".toList, "a".toList] [0]
        = render ['\t'] ["a".toList, "b".toList, "a".toList] [2] ∧
      out.stdout
        = (out.emitted.map (render ['\t'] ["a".toList, "b".toList, "a".toList])).flatten) ∧
    (∀ k, 1 ≤ k → k < 2 ^ 63 →
      ∃ out, print_all ['\t'] ["a".toList, "b".toList, "a".toList] k = .ok out ∧
        out.emitted.Nodup) ∧
    (∀ cap, main cap ["a".toList, "a".toList, "1".toList] []
      = .ok { exit_code := 0, stdout := "a\na\n".toList, stderr := [],
              emitted := [[0], [1]], INPUT_VECTOR := ["a".toList, "a".toList],
              OUTPUT_SEPARATOR := [','], CHOOSE_K := 1 }) :=
  C19_selected_by_position ['\t'] ["a".toList, "b".toList, "a".toList] 0 2 (by decide)
    (by decide) (by decide)

/-- C20: a successful range expansion appends, behind the entries already there, only
strings that are the `std::to_string` form of a signed 64-bit integer, which `std::stoll`
reads back in full, whatever text the bounds were written in; for the token `01-03`
`read_elements` appends 1, 2, 3 and the written bound `01` is not in the input sequence. -/
theorem C20_canonical_range_text (cap : Nat) (left right : Str) (v w : List Str)
    (h : read_range cap left right v = .ok (true, w)) :
    (∃ toks, w = v ++ toks ∧
      ∀ t ∈ toks, ∃ x : Int, t = to_string x ∧ stoll t = .ok (x, t.length)) ∧
    (∀ c, 3 ≤ c →
      read_elements c ["01-03".toList] [] = .ok ["1".toList, "2".toList, "3".toList]) ∧
    "01".toList ∉ ["1".toList, "2".toList, "3".toList] ∧
    to_string 1 = "1".toList := by
  refine ⟨?_, fun c h3 => read_elements_of_settled h3 _ _ _ (by decide) (by decide),
    by decide, by decide⟩
  obtain ⟨toks, hw, ht⟩ := read_range_tokens cap left right v w h
  refine ⟨toks, hw, fun t hmem => ?_⟩
  obtain ⟨x, hx1, hx2, rfl⟩ := ht t hmem
  exact ⟨x, rfl, stoll_to_string x hx1 hx2⟩

theorem C20_canonical_range_text_witness :
    (∃ toks, ["1".toList, "2".toList, "3".toList] = [] ++ toks ∧
      ∀ t ∈ toks, ∃ x : Int, t = to_string x ∧ stoll t = .ok (x, t.length)) ∧
    (∀ c, 3 ≤ c →
      read_elements c ["01-03".toList] [] = .ok ["1".toList, "2".toList, "3".toList]) ∧
    "01".toList ∉ ["1".toList, "2".toList, "3".toList] ∧
    to_string 1 = "1".toList :=
  C20_canonical_range_text 100 "01".toList "03".toList [] ["1".toList, "2".toList, "3".toList]
    (by decide)

end Choose
